import Mathlib

/-!
Verification of the circuit-SDK core: bit-vector value types (uint.rs),
the bitwise circuit synthesizers (operations/bitwise.rs) and the mux
wrapper (operations/mux.rs), against the natural-language specification.

Gates, circuits and the executor semantics follow the spec's data model
(the executor itself is an external collaborator of the core).
-/

/-- A gate of the fixed five-gate alphabet (`tandem::Gate`): contributor
input, evaluator input, xor, and, not.  Wire indices are the positions of
gates in the gate list. -/
inductive Gate where
  | InContrib : Gate
  | InEval : Gate
  | Xor : Nat → Nat → Gate
  | And : Nat → Nat → Gate
  | Not : Nat → Gate
  deriving DecidableEq

/-- A circuit (`tandem::Circuit`): an ordered gate list together with the
list of output wire indices. -/
structure Circuit where
  gates : List Gate
  outputs : List Nat
  deriving DecidableEq

/-- State of the straight-line evaluation of a gate list: wire values
computed so far (wire k is the k-th gate appended), and the contributor
and evaluator input bits not yet consumed. -/
structure SimState where
  wires : List Bool
  contribLeft : List Bool
  evalLeft : List Bool
  deriving DecidableEq

/-- Modelled from the spec: the garbled-circuit executor (`simulate`,
behind the `Executor` trait) is not under src/.  One gate is evaluated
against the current state: an input gate consumes the next contributor
or evaluator bit, a Xor/And/Not gate combines the values of earlier
wires; the result is appended as the new wire.  Missing inputs or a
reference to a not-yet-existing wire is a failure. -/
def stepGate (s : SimState) : Gate → Option SimState
  | Gate.InContrib =>
    match s.contribLeft with
    | [] => none
    | b :: rest => some ⟨s.wires ++ [b], rest, s.evalLeft⟩
  | Gate.InEval =>
    match s.evalLeft with
    | [] => none
    | b :: rest => some ⟨s.wires ++ [b], s.contribLeft, rest⟩
  | Gate.Xor i j =>
    match s.wires[i]?, s.wires[j]? with
    | some a, some b => some ⟨s.wires ++ [Bool.xor a b], s.contribLeft, s.evalLeft⟩
    | _, _ => none
  | Gate.And i j =>
    match s.wires[i]?, s.wires[j]? with
    | some a, some b => some ⟨s.wires ++ [a && b], s.contribLeft, s.evalLeft⟩
    | _, _ => none
  | Gate.Not i =>
    match s.wires[i]? with
    | some a => some ⟨s.wires ++ [!a], s.contribLeft, s.evalLeft⟩
    | none => none

/-- Evaluate a gate list left to right, threading the simulation state. -/
def runGates : SimState → List Gate → Option SimState
  | s, [] => some s
  | s, g :: gs => (stepGate s g).bind (fun s2 => runGates s2 gs)

/-- Modelled from the spec: the executor contract.  `simulate` evaluates
the whole gate list on the two input bit vectors and reads the bit value
of every output wire index, in order. -/
def simulate (c : Circuit) (contrib evalBits : List Bool) : Option (List Bool) :=
  (runGates ⟨[], contrib, evalBits⟩ c.gates).bind fun s =>
    c.outputs.mapM fun i => s.wires[i]?

/-- The width-tagged bit vector `GarbledUint<N>` of uint.rs: a little-endian
vector of bits (index 0 is the least significant bit) with a phantom
width tag `n`.  The length invariant is enforced by the `new` constructor,
not by the type. -/
structure GarbledUint (n : Nat) where
  bits : List Bool
  deriving DecidableEq

/-- Embedding of `GarbledUint::<N>::new(bits)`: asserts `bits.len() == N` (a panic is
modelled as `none`) and stores exactly the given bits. -/
def GarbledUint.new (n : Nat) (bits : List Bool) : Option (GarbledUint n) :=
  if bits.length = n then some ⟨bits⟩ else none

/-- Embedding of `GarbledUint::<N>::zero()`: builds `new(vec![false])`. -/
def GarbledUint.zero (n : Nat) : Option (GarbledUint n) :=
  GarbledUint.new n [false]

/-- Embedding of `GarbledUint::<N>::one()`: builds `new(vec![true])`. -/
def GarbledUint.one (n : Nat) : Option (GarbledUint n) :=
  GarbledUint.new n [true]

/-- The little-endian bit list of a native unsigned integer, as built by
the `From<uW> for GarbledUint<N>` impls: bit i is `(value >> i) & 1 == 1`. -/
def uintBits (n : Nat) (v : Nat) : List Bool :=
  (List.range n).map fun i => decide ((v >>> i) &&& 1 = 1)

/-- Embedding of `From<u8> for GarbledUint<N>`: asserts `N <= 8`, then stores the low
`N` bits of the value. -/
def GarbledUint.from_u8 (n : Nat) (v : Nat) : Option (GarbledUint n) :=
  if n ≤ 8 then GarbledUint.new n (uintBits n v) else none

/-- Embedding of `From<u16> for GarbledUint<N>`: asserts `N <= 16`. -/
def GarbledUint.from_u16 (n : Nat) (v : Nat) : Option (GarbledUint n) :=
  if n ≤ 16 then GarbledUint.new n (uintBits n v) else none

/-- Embedding of `From<u32> for GarbledUint<N>`: asserts `N <= 32`. -/
def GarbledUint.from_u32 (n : Nat) (v : Nat) : Option (GarbledUint n) :=
  if n ≤ 32 then GarbledUint.new n (uintBits n v) else none

/-- Embedding of `From<u64> for GarbledUint<N>`: asserts `N <= 64`. -/
def GarbledUint.from_u64 (n : Nat) (v : Nat) : Option (GarbledUint n) :=
  if n ≤ 64 then GarbledUint.new n (uintBits n v) else none

/-- Embedding of `From<u128> for GarbledUint<N>`: asserts `N <= 128`. -/
def GarbledUint.from_u128 (n : Nat) (v : Nat) : Option (GarbledUint n) :=
  if n ≤ 128 then GarbledUint.new n (uintBits n v) else none

/-- The accumulator loop of the `From<GarbledUint<N>> for uW` impls:
`value |= 1 << i` for every set bit, iterating over the stored bits. -/
def toNatAcc : Nat → Nat → List Bool → Nat
  | acc, _, [] => acc
  | acc, i, b :: rest => toNatAcc (if b then acc ||| (1 <<< i) else acc) (i + 1) rest

/-- Embedding of `From<GarbledUint<N>> for u8`: asserts `N <= 8`, then reassembles the
bits little-endian. -/
def GarbledUint.to_u8 (x : GarbledUint n) : Option Nat :=
  if n ≤ 8 then some (toNatAcc 0 0 x.bits) else none

/-- Embedding of `From<GarbledUint<N>> for u16`: asserts `N <= 16`. -/
def GarbledUint.to_u16 (x : GarbledUint n) : Option Nat :=
  if n ≤ 16 then some (toNatAcc 0 0 x.bits) else none

/-- Embedding of `From<GarbledUint<N>> for u32`: asserts `N <= 32`. -/
def GarbledUint.to_u32 (x : GarbledUint n) : Option Nat :=
  if n ≤ 32 then some (toNatAcc 0 0 x.bits) else none

/-- Embedding of `From<GarbledUint<N>> for u64`: asserts `N <= 64`. -/
def GarbledUint.to_u64 (x : GarbledUint n) : Option Nat :=
  if n ≤ 64 then some (toNatAcc 0 0 x.bits) else none

/-- Embedding of `From<GarbledUint<N>> for u128`: asserts `N <= 128`. -/
def GarbledUint.to_u128 (x : GarbledUint n) : Option Nat :=
  if n ≤ 128 then some (toNatAcc 0 0 x.bits) else none

/-- The unsigned interpretation of a little-endian bit vector:
value = sum of bit i times 2 to the i (the spec's unsigned view). -/
def bitsToNat : List Bool → Nat
  | [] => 0
  | b :: rest => (if b then 1 else 0) + 2 * bitsToNat rest

/-- The signed two's-complement bit vector `GarbledInt<N>` of int.rs.
int.rs is not under src/; per the spec it is the same bit storage as
`GarbledUint<N>` under a signed view. -/
structure GarbledInt (n : Nat) where
  bits : List Bool
  deriving DecidableEq

/-- Embedding of `From<GarbledInt<N>> for GarbledUint<N>` (uint.rs): a direct copy of
the bits — reinterpretation of the same storage. -/
def GarbledUint.fromInt (x : GarbledInt n) : GarbledUint n :=
  ⟨x.bits⟩

/-- Modelled from the spec: `From<GarbledUint<N>> for GarbledInt<N>`
lives in int.rs, which is not under src/; the spec states that the
signed/unsigned conversion is a pure reinterpretation of the same bits. -/
def GarbledInt.fromUint (x : GarbledUint n) : GarbledInt n :=
  ⟨x.bits⟩

/-- Modelled from the spec: construction of a `GarbledInt<N>` from a
native signed integer (int.rs is not under src/).  Per the spec the
two's-complement bits are stored little-endian, and going from a narrower
native signed integer to a wider `GarbledInt<N>` sign-extends: the stored
bits are the `N` low bits of the value's two's-complement representation,
that is the bits of `v mod 2^N`. -/
def GarbledInt.from_int (n : Nat) (v : Int) : GarbledInt n :=
  ⟨uintBits n (v % ((2 : Int) ^ n)).toNat⟩

/-- Modelled from the spec: conversion of a `GarbledInt<N>` back to a
native signed integer of width `w` (int.rs is not under src/).  The bits
are reassembled little-endian and reinterpreted in two's complement:
values with the sign bit set represent `value - 2^w`. -/
def GarbledInt.to_int (w : Nat) (x : GarbledInt n) : Option Int :=
  if n ≤ w then
    some (if bitsToNat x.bits < 2 ^ (w - 1) then (bitsToNat x.bits : Int)
          else (bitsToNat x.bits : Int) - 2 ^ w)
  else none

/-- The circuit built by `build_and_simulate` (bitwise.rs): `N` contributor
inputs, `N` evaluator inputs, then for each bit position `i` the gate
`gate_fn(i, N + i)`; the outputs are the wires `2N .. 3N - 1`.  The
circuit depends only on the width, not on the operand bits. -/
def build_and_simulate_circuit (n : Nat) (gate_fn : Nat → Nat → Gate) : Circuit :=
  ⟨List.replicate n Gate.InContrib ++ List.replicate n Gate.InEval
      ++ (List.range n).map (fun i => gate_fn i (n + i)),
   List.range' (2 * n) n⟩

/-- Embedding of `build_and_simulate` (bitwise.rs): builds the per-bit binary circuit,
simulates it on the operands (the right operand defaults to the left one
when absent) and wraps the output bits through `GarbledUint::new`.  The
`unwrap` of a failed simulation is modelled as `none`. -/
def build_and_simulate (n : Nat) (lhs : GarbledUint n) (rhs : Option (GarbledUint n))
    (gate_fn : Nat → Nat → Gate) : Option (GarbledUint n) :=
  let bits_rhs := match rhs with
    | none => lhs.bits
    | some r => r.bits
  (simulate (build_and_simulate_circuit n gate_fn) lhs.bits bits_rhs).bind
    (GarbledUint.new n)

/-- Embedding of `BitXor for GarbledUint<N>`: `build_and_simulate` with `Gate::Xor`. -/
def GarbledUint.bitxor (a b : GarbledUint n) : Option (GarbledUint n) :=
  build_and_simulate n a (some b) Gate.Xor

/-- Embedding of `BitAnd for GarbledUint<N>`: `build_and_simulate` with `Gate::And`. -/
def GarbledUint.bitand (a b : GarbledUint n) : Option (GarbledUint n) :=
  build_and_simulate n a (some b) Gate.And

/-- The circuit built by `build_and_simulate_not` (bitwise.rs): `N`
contributor and `N` evaluator inputs, then a `Not` gate for every one of
the `2N` input wires; the outputs are the wires `2N .. 3N - 1`. -/
def build_and_simulate_not_circuit (n : Nat) : Circuit :=
  ⟨List.replicate n Gate.InContrib ++ List.replicate n Gate.InEval
      ++ (List.range (n * 2)).map Gate.Not,
   List.range' (2 * n) n⟩

/-- Embedding of `build_and_simulate_not` (bitwise.rs): simulates the NOT circuit with
the input bits fed as both the contributor and the evaluator half. -/
def build_and_simulate_not (n : Nat) (input : GarbledUint n) : Option (GarbledUint n) :=
  (simulate (build_and_simulate_not_circuit n) input.bits input.bits).bind
    (GarbledUint.new n)

/-- Embedding of `Not for GarbledUint<N>`. -/
def GarbledUint.bitnot (a : GarbledUint n) : Option (GarbledUint n) :=
  build_and_simulate_not n a

/-- One iteration of the gate-emitting loop of `build_and_simulate_or`
(bitwise.rs): pushes `Xor(i, N+i)`, `And(i, N+i)` and the final
`Xor` of those two fresh wires, and records the last wire as the bit's
output index. -/
def or_step (n : Nat) (acc : List Gate × List Nat) (i : Nat) : List Gate × List Nat :=
  let xor_gate_idx := acc.1.length
  let gates1 := acc.1 ++ [Gate.Xor i (n + i)]
  let and_gate_idx := gates1.length
  let gates2 := gates1 ++ [Gate.And i (n + i)]
  let gates3 := gates2 ++ [Gate.Xor xor_gate_idx and_gate_idx]
  (gates3, acc.2 ++ [gates3.length - 1])

/-- The circuit built by `build_and_simulate_or`: input prefix, then the
OR gadget `(a XOR b) XOR (a AND b)` per bit. -/
def build_and_simulate_or_circuit (n : Nat) : Circuit :=
  let init : List Gate × List Nat :=
    (List.replicate n Gate.InContrib ++ List.replicate n Gate.InEval, [])
  let res := (List.range n).foldl (or_step n) init
  ⟨res.1, res.2⟩

/-- Embedding of `build_and_simulate_or` (bitwise.rs). -/
def build_and_simulate_or (n : Nat) (lhs : GarbledUint n)
    (rhs : Option (GarbledUint n)) : Option (GarbledUint n) :=
  let bits_rhs := match rhs with
    | none => lhs.bits
    | some r => r.bits
  (simulate (build_and_simulate_or_circuit n) lhs.bits bits_rhs).bind
    (GarbledUint.new n)

/-- Embedding of `BitOr for GarbledUint<N>`. -/
def GarbledUint.bitor (a b : GarbledUint n) : Option (GarbledUint n) :=
  build_and_simulate_or n a (some b)

/-- One iteration of the gate-emitting loop of `build_and_simulate_nand`:
pushes `And(i, N+i)` and a `Not` of that fresh wire. -/
def nand_step (n : Nat) (acc : List Gate × List Nat) (i : Nat) : List Gate × List Nat :=
  let and_gate_idx := acc.1.length
  let gates1 := acc.1 ++ [Gate.And i (n + i)]
  let gates2 := gates1 ++ [Gate.Not and_gate_idx]
  (gates2, acc.2 ++ [gates2.length - 1])

/-- The circuit built by `build_and_simulate_nand`. -/
def build_and_simulate_nand_circuit (n : Nat) : Circuit :=
  let init : List Gate × List Nat :=
    (List.replicate n Gate.InContrib ++ List.replicate n Gate.InEval, [])
  let res := (List.range n).foldl (nand_step n) init
  ⟨res.1, res.2⟩

/-- Embedding of `build_and_simulate_nand` (bitwise.rs). -/
def build_and_simulate_nand (n : Nat) (lhs : GarbledUint n)
    (rhs : Option (GarbledUint n)) : Option (GarbledUint n) :=
  let bits_rhs := match rhs with
    | none => lhs.bits
    | some r => r.bits
  (simulate (build_and_simulate_nand_circuit n) lhs.bits bits_rhs).bind
    (GarbledUint.new n)

/-- Embedding of `GarbledUint::nand`. -/
def GarbledUint.nand (a b : GarbledUint n) : Option (GarbledUint n) :=
  build_and_simulate_nand n a (some b)

/-- One iteration of the gate-emitting loop of `build_and_simulate_nor`:
the OR gadget followed by a `Not` of its last wire. -/
def nor_step (n : Nat) (acc : List Gate × List Nat) (i : Nat) : List Gate × List Nat :=
  let xor_gate_idx := acc.1.length
  let gates1 := acc.1 ++ [Gate.Xor i (n + i)]
  let and_gate_idx := gates1.length
  let gates2 := gates1 ++ [Gate.And i (n + i)]
  let gates3 := gates2 ++ [Gate.Xor xor_gate_idx and_gate_idx]
  let gates4 := gates3 ++ [Gate.Not (gates3.length - 1)]
  (gates4, acc.2 ++ [gates4.length - 1])

/-- The circuit built by `build_and_simulate_nor`. -/
def build_and_simulate_nor_circuit (n : Nat) : Circuit :=
  let init : List Gate × List Nat :=
    (List.replicate n Gate.InContrib ++ List.replicate n Gate.InEval, [])
  let res := (List.range n).foldl (nor_step n) init
  ⟨res.1, res.2⟩

/-- Embedding of `build_and_simulate_nor` (bitwise.rs). -/
def build_and_simulate_nor (n : Nat) (lhs : GarbledUint n)
    (rhs : Option (GarbledUint n)) : Option (GarbledUint n) :=
  let bits_rhs := match rhs with
    | none => lhs.bits
    | some r => r.bits
  (simulate (build_and_simulate_nor_circuit n) lhs.bits bits_rhs).bind
    (GarbledUint.new n)

/-- Embedding of `GarbledUint::nor`. -/
def GarbledUint.nor (a b : GarbledUint n) : Option (GarbledUint n) :=
  build_and_simulate_nor n a (some b)

/-- One iteration of the gate-emitting loop of `build_and_simulate_xnor`:
pushes `Xor(i, N+i)` and a `Not` of that fresh wire. -/
def xnor_step (n : Nat) (acc : List Gate × List Nat) (i : Nat) : List Gate × List Nat :=
  let xor_gate_idx := acc.1.length
  let gates1 := acc.1 ++ [Gate.Xor i (n + i)]
  let gates2 := gates1 ++ [Gate.Not xor_gate_idx]
  (gates2, acc.2 ++ [gates2.length - 1])

/-- The circuit built by `build_and_simulate_xnor`. -/
def build_and_simulate_xnor_circuit (n : Nat) : Circuit :=
  let init : List Gate × List Nat :=
    (List.replicate n Gate.InContrib ++ List.replicate n Gate.InEval, [])
  let res := (List.range n).foldl (xnor_step n) init
  ⟨res.1, res.2⟩

/-- Embedding of `build_and_simulate_xnor` (bitwise.rs). -/
def build_and_simulate_xnor (n : Nat) (lhs : GarbledUint n)
    (rhs : Option (GarbledUint n)) : Option (GarbledUint n) :=
  let bits_rhs := match rhs with
    | none => lhs.bits
    | some r => r.bits
  (simulate (build_and_simulate_xnor_circuit n) lhs.bits bits_rhs).bind
    (GarbledUint.new n)

/-- Embedding of `GarbledUint::xnor`. -/
def GarbledUint.xnor (a b : GarbledUint n) : Option (GarbledUint n) :=
  build_and_simulate_xnor n a (some b)

/-- Embedding of `BitXor for GarbledInt<N>` (bitwise.rs): reinterpret both operands as
unsigned, run the same builder, reinterpret the result. -/
def GarbledInt.bitxor (a b : GarbledInt n) : Option (GarbledInt n) :=
  (build_and_simulate n (GarbledUint.fromInt a) (some (GarbledUint.fromInt b))
    Gate.Xor).map GarbledInt.fromUint

/-- Embedding of `BitAnd for GarbledInt<N>` (bitwise.rs). -/
def GarbledInt.bitand (a b : GarbledInt n) : Option (GarbledInt n) :=
  (build_and_simulate n (GarbledUint.fromInt a) (some (GarbledUint.fromInt b))
    Gate.And).map GarbledInt.fromUint

/-- Embedding of `BitOr for GarbledInt<N>` (bitwise.rs). -/
def GarbledInt.bitor (a b : GarbledInt n) : Option (GarbledInt n) :=
  (build_and_simulate_or n (GarbledUint.fromInt a)
    (some (GarbledUint.fromInt b))).map GarbledInt.fromUint

/-- Embedding of `Not for GarbledInt<N>` (bitwise.rs). -/
def GarbledInt.bitnot (a : GarbledInt n) : Option (GarbledInt n) :=
  (build_and_simulate_not n (GarbledUint.fromInt a)).map GarbledInt.fromUint

/-- Embedding of `GarbledInt::nand` (bitwise.rs). -/
def GarbledInt.nand (a b : GarbledInt n) : Option (GarbledInt n) :=
  (build_and_simulate_nand n (GarbledUint.fromInt a)
    (some (GarbledUint.fromInt b))).map GarbledInt.fromUint

/-- Embedding of `GarbledInt::nor` (bitwise.rs). -/
def GarbledInt.nor (a b : GarbledInt n) : Option (GarbledInt n) :=
  (build_and_simulate_nor n (GarbledUint.fromInt a)
    (some (GarbledUint.fromInt b))).map GarbledInt.fromUint

/-- Embedding of `GarbledInt::xnor` (bitwise.rs). -/
def GarbledInt.xnor (a b : GarbledInt n) : Option (GarbledInt n) :=
  (build_and_simulate_xnor n (GarbledUint.fromInt a)
    (some (GarbledUint.fromInt b))).map GarbledInt.fromUint

/-- Embedding of `shift_bits_left::<N>` (bitwise.rs): `shift` times, remove the most
significant bit (index `N - 1`) and insert a `false` at the least
significant position.  A removal at an out-of-range index (in particular
any shift on a width-0 vector) panics, modelled as `none`. -/
def shift_bits_left (n : Nat) : Nat → List Bool → Option (List Bool)
  | 0, bits => some bits
  | s + 1, bits =>
    if 0 < n ∧ n - 1 < bits.length then
      shift_bits_left n s (false :: bits.eraseIdx (n - 1))
    else none

/-- Embedding of `shift_bits_right::<N>` (bitwise.rs): `shift` times, remove the least
significant bit and push a `false` as the new most significant bit.
Removal from an empty vector panics, modelled as `none`. -/
def shift_bits_right (_n : Nat) : Nat → List Bool → Option (List Bool)
  | 0, bits => some bits
  | s + 1, bits =>
    match bits with
    | [] => none
    | _ :: rest => shift_bits_right _n s (rest ++ [false])

/-- Embedding of `Shl<usize> for GarbledUint<N>`: shifts the bit vector in place. -/
def GarbledUint.shl (x : GarbledUint n) (shift : Nat) : Option (GarbledUint n) :=
  (shift_bits_left n shift x.bits).map fun bs => ⟨bs⟩

/-- Embedding of `Shr<usize> for GarbledUint<N>`: shifts the bit vector in place. -/
def GarbledUint.shr (x : GarbledUint n) (shift : Nat) : Option (GarbledUint n) :=
  (shift_bits_right n shift x.bits).map fun bs => ⟨bs⟩

/-- Modelled from the spec: `GarbledInt::new` lives in int.rs, which is
not under src/; like the unsigned constructor it requires exactly `N`
bits. -/
def GarbledInt.new (n : Nat) (bits : List Bool) : Option (GarbledInt n) :=
  if bits.length = n then some ⟨bits⟩ else none

/-- Embedding of `Shl<usize> for GarbledInt<N>` (bitwise.rs): shifts the bits with
`shift_bits_left` and rebuilds through `GarbledInt::new`. -/
def GarbledInt.shl (x : GarbledInt n) (shift : Nat) : Option (GarbledInt n) :=
  (shift_bits_left n shift x.bits).bind (GarbledInt.new n)

/-- Embedding of `Shr<usize> for GarbledInt<N>` (bitwise.rs): shifts the bits with
`shift_bits_right` — the same zero-filling logical shift as the unsigned
type — and rebuilds through `GarbledInt::new`. -/
def GarbledInt.shr (x : GarbledInt n) (shift : Nat) : Option (GarbledInt n) :=
  (shift_bits_right n shift x.bits).bind (GarbledInt.new n)

/-- Modelled from the spec: `build_and_execute_mux` lives in
operations/circuits/builder.rs, which is not under src/.  Per the spec,
the multiplexer selects per bit as `f[i] XOR (c AND (t[i] XOR f[i]))`
with the single condition bit `c`. -/
def build_and_execute_mux (n : Nat) (condition : GarbledUint 1)
    (if_true if_false : GarbledUint n) : GarbledUint n :=
  ⟨List.zipWith
      (fun t f => Bool.xor f ((condition.bits.getD 0 false) && Bool.xor t f))
      if_true.bits if_false.bits⟩

/-- Embedding of `GarbledUint::mux` (mux.rs): forwards to `build_and_execute_mux`. -/
def GarbledUint.mux (condition : GarbledUint 1)
    (if_true if_false : GarbledUint n) : GarbledUint n :=
  build_and_execute_mux n condition if_true if_false

/-- Embedding of `GarbledInt::mux` (mux.rs): reinterprets both branches as unsigned,
muxes, and reinterprets the result. -/
def GarbledInt.mux (condition : GarbledUint 1)
    (if_true if_false : GarbledInt n) : GarbledInt n :=
  GarbledInt.fromUint
    (build_and_execute_mux n condition (GarbledUint.fromInt if_true)
      (GarbledUint.fromInt if_false))

/-- Input gates of the five-gate alphabet. -/
def isInputGate : Gate → Bool
  | Gate.InContrib => true
  | Gate.InEval => true
  | _ => false

/-- A gate sitting at wire index `k` may only reference strictly smaller
wire indices. -/
def gateRefsOk (k : Nat) : Gate → Bool
  | Gate.Xor i j => decide (i < k) && decide (j < k)
  | Gate.And i j => decide (i < k) && decide (j < k)
  | Gate.Not i => decide (i < k)
  | _ => true

/-- Checks `gateRefsOk` for every gate of a list, the first gate sitting
at wire index `k`. -/
def gatesRefsOkFrom : Nat → List Gate → Bool
  | _, [] => true
  | k, g :: gs => gateRefsOk k g && gatesRefsOkFrom (k + 1) gs

/-- All input gates of the list appear before any non-input gate. -/
def inputsInFront (gs : List Gate) : Bool :=
  (gs.dropWhile isInputGate).all fun g => !isInputGate g

/-- The spec's wire-index invariant on circuits: inputs form a prefix of
the gate list, every non-input gate references strictly smaller wire
indices, and every output index is a valid index into the gate list. -/
def circuitWF (c : Circuit) : Bool :=
  inputsInFront c.gates && gatesRefsOkFrom 0 c.gates
    && c.outputs.all fun i => decide (i < c.gates.length)

/-- The non-input gates of a circuit, in order. -/
def nonInputGates (c : Circuit) : List Gate :=
  c.gates.filter fun g => !isInputGate g

theorem lor_two_pow_of_lt : ∀ (i a : Nat), a < 2 ^ i → a ||| 2 ^ i = a + 2 ^ i := by
  intro i
  induction i with
  | zero =>
    intro a ha
    have h0 : a = 0 := Nat.lt_one_iff.mp ha
    subst h0
    decide
  | succ i ih =>
    intro a ha
    have hb : Nat.bit (Nat.bodd a) (Nat.div2 a) = a := Nat.bit_decomp a
    have hp : Nat.bit false (2 ^ i) = 2 ^ (i + 1) := by
      simp [Nat.bit_val, Nat.pow_succ, Nat.mul_comm]
    have hdiv2 : Nat.div2 a = a / 2 := Nat.div2_val a
    have hdiv : Nat.div2 a < 2 ^ i := by
      rw [hdiv2, Nat.div_lt_iff_lt_mul (by norm_num)]
      calc a < 2 ^ (i + 1) := ha
        _ = 2 ^ i * 2 := by rw [Nat.pow_succ]
    calc a ||| 2 ^ (i + 1)
        = Nat.bit (Nat.bodd a) (Nat.div2 a) ||| Nat.bit false (2 ^ i) := by rw [hb, hp]
      _ = Nat.bit (Nat.bodd a || false) (Nat.div2 a ||| 2 ^ i) := Nat.lor_bit _ _ _ _
      _ = Nat.bit (Nat.bodd a) (Nat.div2 a + 2 ^ i) := by rw [Bool.or_false, ih _ hdiv]
      _ = a + 2 ^ (i + 1) := by
          rw [Nat.bit_val, Nat.mul_add]
          conv_rhs => rw [← hb]
          rw [Nat.bit_val]
          ring_nf

theorem uintBits_eq_map_testBit (n v : Nat) :
    uintBits n v = (List.range n).map (Nat.testBit v) := by
  unfold uintBits
  apply List.map_congr_left
  intro i _
  simp [Nat.testBit, Nat.and_comm]

theorem bitsToNat_map_testBit : ∀ (w v : Nat),
    bitsToNat ((List.range w).map (Nat.testBit v)) = v % 2 ^ w := by
  intro w
  induction w with
  | zero => intro v; simp [bitsToNat, Nat.mod_one]
  | succ w ih =>
    intro v
    rw [List.range_succ_eq_map, List.map_cons, List.map_map, bitsToNat]
    have hcomp : (Nat.testBit v ∘ Nat.succ) = fun i => Nat.testBit (v / 2) i := by
      funext i
      exact Nat.testBit_succ v i
    rw [hcomp, ih (v / 2)]
    have h0 : Nat.testBit v 0 = decide (v % 2 = 1) := Nat.testBit_zero v
    have hv2 : v % 2 = 0 ∨ v % 2 = 1 := Nat.mod_two_eq_zero_or_one v
    have hd1 : v = 2 * (v / 2) + v % 2 := (Nat.div_add_mod v 2).symm
    have hd2 : v / 2 = 2 ^ w * (v / 2 / 2 ^ w) + v / 2 % 2 ^ w :=
      (Nat.div_add_mod (v / 2) (2 ^ w)).symm
    have hd3 : v = 2 ^ (w + 1) * (v / 2 ^ (w + 1)) + v % 2 ^ (w + 1) :=
      (Nat.div_add_mod v (2 ^ (w + 1))).symm
    have hdd : v / 2 / 2 ^ w = v / 2 ^ (w + 1) := by
      rw [Nat.div_div_eq_div_mul, Nat.pow_succ']
    have hlt1 : v % 2 ^ (w + 1) < 2 ^ (w + 1) :=
      Nat.mod_lt v (Nat.pos_pow_of_pos (w + 1) (by norm_num))
    have hlt2 : v / 2 % 2 ^ w < 2 ^ w :=
      Nat.mod_lt _ (Nat.pos_pow_of_pos w (by norm_num))
    have hps : 2 ^ (w + 1) = 2 * 2 ^ w := by rw [Nat.pow_succ']
    have hd3b : v = 2 * (2 ^ w * (v / 2 / 2 ^ w)) + v % 2 ^ (w + 1) := by
      calc v = 2 ^ (w + 1) * (v / 2 / 2 ^ w) + v % 2 ^ (w + 1) := by
              rw [hdd]; exact hd3
        _ = 2 * (2 ^ w * (v / 2 / 2 ^ w)) + v % 2 ^ (w + 1) := by rw [hps]; ring
    rw [hps] at hlt1
    have hif : (if Nat.testBit v 0 = true then 1 else 0) = v % 2 := by
      rw [h0]
      rcases hv2 with h | h <;> rw [h] <;> simp
    rw [hif]
    omega

theorem toNatAcc_eq : ∀ (l : List Bool) (acc i : Nat), acc < 2 ^ i →
    toNatAcc acc i l = acc + 2 ^ i * bitsToNat l := by
  intro l
  induction l with
  | nil => intro acc i _; simp [toNatAcc, bitsToNat]
  | cons b rest ih =>
    intro acc i h
    have hps : 2 ^ (i + 1) = 2 * 2 ^ i := by rw [Nat.pow_succ']
    cases b with
    | false =>
      rw [toNatAcc, bitsToNat]
      rw [if_neg Bool.false_ne_true, if_neg Bool.false_ne_true]
      rw [ih acc (i + 1) (by omega), hps]
      ring
    | true =>
      rw [toNatAcc, bitsToNat]
      rw [if_pos rfl, if_pos rfl]
      rw [Nat.one_shiftLeft, lor_two_pow_of_lt i acc h]
      rw [ih (acc + 2 ^ i) (i + 1) (by omega), hps]
      ring

theorem toNatAcc_eq_bitsToNat (l : List Bool) : toNatAcc 0 0 l = bitsToNat l := by
  rw [toNatAcc_eq l 0 0 (by norm_num)]
  simp

theorem uint_roundtrip_aux (w v : Nat) (hv : v < 2 ^ w) :
    toNatAcc 0 0 (uintBits w v) = v := by
  rw [toNatAcc_eq_bitsToNat, uintBits_eq_map_testBit, bitsToNat_map_testBit,
    Nat.mod_eq_of_lt hv]

theorem bitsToNat_lt : ∀ (l : List Bool), bitsToNat l < 2 ^ l.length := by
  intro l
  induction l with
  | nil => simp [bitsToNat]
  | cons b rest ih =>
    rw [bitsToNat, List.length_cons]
    have hps : 2 ^ (rest.length + 1) = 2 * 2 ^ rest.length := by rw [Nat.pow_succ']
    have hb : (if b = true then 1 else 0) ≤ 1 := by cases b <;> simp
    omega

theorem uintBits_length (n v : Nat) : (uintBits n v).length = n := by
  simp [uintBits]

theorem uint_new_bits (n v : Nat) :
    GarbledUint.new n (uintBits n v) = some ⟨uintBits n v⟩ := by
  unfold GarbledUint.new
  rw [if_pos (uintBits_length n v)]

theorem bitsToNat_uintBits (n v : Nat) : bitsToNat (uintBits n v) = v % 2 ^ n := by
  rw [uintBits_eq_map_testBit, bitsToNat_map_testBit]

theorem int_roundtrip_aux (w : Nat) (v : Int) (hw : 1 ≤ w)
    (hlo : -((2 : Int) ^ (w - 1)) ≤ v) (hhi : v < (2 : Int) ^ (w - 1)) :
    GarbledInt.to_int w (GarbledInt.from_int w v) = some v := by
  have hM0 : (0 : Int) < (2 : Int) ^ w := by positivity
  have hh0 : (0 : Int) < (2 : Int) ^ (w - 1) := by positivity
  have hsplit : (2 : Int) ^ w = 2 * (2 : Int) ^ (w - 1) := by
    have hps := pow_succ (2 : Int) (w - 1)
    have hw1 : w - 1 + 1 = w := by omega
    rw [hw1] at hps
    linarith
  set u : Nat := (v % (2 : Int) ^ w).toNat with hu
  have hunn : (0 : Int) ≤ v % (2 : Int) ^ w := Int.emod_nonneg v (by positivity)
  have hucast : (u : Int) = v % (2 : Int) ^ w := Int.toNat_of_nonneg hunn
  have hult : v % (2 : Int) ^ w < (2 : Int) ^ w := Int.emod_lt_of_pos v hM0
  have hupow : (((2 : Nat) ^ w : Nat) : Int) = (2 : Int) ^ w := by push_cast; ring
  have huw : u < 2 ^ w := by
    have hc : (u : Int) < (((2 : Nat) ^ w : Nat) : Int) := by
      rw [hucast, hupow]; exact hult
    exact_mod_cast hc
  have hbits : bitsToNat (uintBits w u) = u := by
    rw [bitsToNat_uintBits, Nat.mod_eq_of_lt huw]
  have hhpow : (((2 : Nat) ^ (w - 1) : Nat) : Int) = (2 : Int) ^ (w - 1) := by
    push_cast; ring
  unfold GarbledInt.from_int GarbledInt.to_int
  dsimp only
  rw [if_pos (le_refl w)]
  rcases le_or_lt 0 v with hv | hv
  · have hmod : v % (2 : Int) ^ w = v :=
      Int.emod_eq_of_lt hv (by linarith)
    have hveq : (u : Int) = v := by rw [hucast, hmod]
    have hcond : bitsToNat (uintBits w u) < 2 ^ (w - 1) := by
      rw [hbits]
      have hc : (u : Int) < (((2 : Nat) ^ (w - 1) : Nat) : Int) := by
        rw [hveq, hhpow]; exact hhi
      exact_mod_cast hc
    rw [if_pos hcond, hbits, hveq]
  · have hmod : v % (2 : Int) ^ w = v + (2 : Int) ^ w := by
      have h1 : (v + (2 : Int) ^ w * 1) % (2 : Int) ^ w = v % (2 : Int) ^ w :=
        @Int.add_mul_emod_self_left v ((2 : Int) ^ w) 1
      have h2 : (v + (2 : Int) ^ w) % (2 : Int) ^ w = v + (2 : Int) ^ w :=
        Int.emod_eq_of_lt (by linarith) (by linarith)
      calc v % (2 : Int) ^ w = (v + (2 : Int) ^ w * 1) % (2 : Int) ^ w := h1.symm
        _ = (v + (2 : Int) ^ w) % (2 : Int) ^ w := by ring_nf
        _ = v + (2 : Int) ^ w := h2
    have hveq : (u : Int) = v + (2 : Int) ^ w := by rw [hucast, hmod]
    have hcond : ¬ bitsToNat (uintBits w u) < 2 ^ (w - 1) := by
      rw [hbits]
      have hc : (((2 : Nat) ^ (w - 1) : Nat) : Int) ≤ (u : Int) := by
        rw [hveq, hhpow]; linarith
      have hc2 : 2 ^ (w - 1) ≤ u := by exact_mod_cast hc
      omega
    rw [if_neg hcond, hbits]
    have hfin : (u : Int) - (2 : Int) ^ w = v := by rw [hveq]; ring
    rw [hfin]

/-- Claim C2: converting a native integer of width N into `Value<N>` and
back returns it unchanged, for the unsigned views u8/u16/u32/u64/u128 and
for the signed view (two's complement) at any width. -/
theorem claim_C2_roundtrip
    (v8 v16 v32 v64 v128 : Nat) (w : Nat) (vi : Int)
    (h8 : v8 < 2 ^ 8) (h16 : v16 < 2 ^ 16) (h32 : v32 < 2 ^ 32)
    (h64 : v64 < 2 ^ 64) (h128 : v128 < 2 ^ 128)
    (hw : 1 ≤ w) (hlo : -((2 : Int) ^ (w - 1)) ≤ vi) (hhi : vi < (2 : Int) ^ (w - 1)) :
    (GarbledUint.from_u8 8 v8).bind GarbledUint.to_u8 = some v8
    ∧ (GarbledUint.from_u16 16 v16).bind GarbledUint.to_u16 = some v16
    ∧ (GarbledUint.from_u32 32 v32).bind GarbledUint.to_u32 = some v32
    ∧ (GarbledUint.from_u64 64 v64).bind GarbledUint.to_u64 = some v64
    ∧ (GarbledUint.from_u128 128 v128).bind GarbledUint.to_u128 = some v128
    ∧ GarbledInt.to_int w (GarbledInt.from_int w vi) = some vi := by
  refine ⟨?_, ?_, ?_, ?_, ?_, int_roundtrip_aux w vi hw hlo hhi⟩
  · rw [GarbledUint.from_u8, if_pos (by norm_num), uint_new_bits, Option.some_bind,
      GarbledUint.to_u8, if_pos (by norm_num)]
    exact congrArg some (uint_roundtrip_aux 8 v8 h8)
  · rw [GarbledUint.from_u16, if_pos (by norm_num), uint_new_bits, Option.some_bind,
      GarbledUint.to_u16, if_pos (by norm_num)]
    exact congrArg some (uint_roundtrip_aux 16 v16 h16)
  · rw [GarbledUint.from_u32, if_pos (by norm_num), uint_new_bits, Option.some_bind,
      GarbledUint.to_u32, if_pos (by norm_num)]
    exact congrArg some (uint_roundtrip_aux 32 v32 h32)
  · rw [GarbledUint.from_u64, if_pos (by norm_num), uint_new_bits, Option.some_bind,
      GarbledUint.to_u64, if_pos (by norm_num)]
    exact congrArg some (uint_roundtrip_aux 64 v64 h64)
  · rw [GarbledUint.from_u128, if_pos (by norm_num), uint_new_bits, Option.some_bind,
      GarbledUint.to_u128, if_pos (by norm_num)]
    exact congrArg some (uint_roundtrip_aux 128 v128 h128)

/-- Witness for claim C2 at concrete inputs: 170 at every unsigned width
and the signed value -86 at width 8. -/
theorem claim_C2_roundtrip_witness :
    (GarbledUint.from_u8 8 170).bind GarbledUint.to_u8 = some 170
    ∧ (GarbledUint.from_u16 16 43690).bind GarbledUint.to_u16 = some 43690
    ∧ (GarbledUint.from_u32 32 2863311530).bind GarbledUint.to_u32 = some 2863311530
    ∧ (GarbledUint.from_u64 64 12297829382473034410).bind GarbledUint.to_u64
        = some 12297829382473034410
    ∧ (GarbledUint.from_u128 128 170).bind GarbledUint.to_u128 = some 170
    ∧ GarbledInt.to_int 8 (GarbledInt.from_int 8 (-86)) = some (-86) :=
  claim_C2_roundtrip 170 43690 2863311530 12297829382473034410 170 8 (-86)
    (by norm_num) (by norm_num) (by norm_num) (by norm_num) (by norm_num)
    (by norm_num) (by norm_num) (by norm_num)

/-- Claim C9: `GarbledUint::<N>::zero()` and `one()` build a length-1 bit
vector, so they abort for every width other than 1 and return well-formed
values exactly at width 1. -/
theorem claim_C9_zero_one (n : Nat) (h : n ≠ 1) :
    GarbledUint.zero n = none ∧ GarbledUint.one n = none
    ∧ GarbledUint.zero 1 = some ⟨[false]⟩ ∧ GarbledUint.one 1 = some ⟨[true]⟩ := by
  refine ⟨?_, ?_, by decide, by decide⟩
  · unfold GarbledUint.zero GarbledUint.new
    rw [if_neg]
    simp only [List.length_singleton]
    omega
  · unfold GarbledUint.one GarbledUint.new
    rw [if_neg]
    simp only [List.length_singleton]
    omega

/-- Witness for claim C9 at width 2. -/
theorem claim_C9_zero_one_witness :
    GarbledUint.zero 2 = none ∧ GarbledUint.one 2 = none
    ∧ GarbledUint.zero 1 = some ⟨[false]⟩ ∧ GarbledUint.one 1 = some ⟨[true]⟩ :=
  claim_C9_zero_one 2 (by decide)

/-- Counterexample to claim C4: constructing a `GarbledUint<16>` from the
u8 value 5 does not succeed — the `From<u8>` impl asserts `N <= 8`, so the
widening conversion the claim describes aborts instead of zero-extending. -/
theorem claim_C4_counterexample : GarbledUint.from_u8 16 5 = none := by decide

theorem uintBits_getD (n u i : Nat) (hi : i < n) :
    (uintBits n u).getD i false = Nat.testBit u i := by
  rw [uintBits_eq_map_testBit, List.getD_eq_getElem?_getD, List.getElem?_map,
    List.getElem?_range hi]
  rfl

theorem from_int_sign_extend (w n : Nat) (v : Int) (hw : 1 ≤ w) (hwn : w ≤ n)
    (hlo : -((2 : Int) ^ (w - 1)) ≤ v) (hhi : v < (2 : Int) ^ (w - 1)) :
    ∀ i, w ≤ i → i < n →
    (GarbledInt.from_int n v).bits.getD i false = decide (v < 0) := by
  intro i hwi hin
  have hM0 : (0 : Int) < (2 : Int) ^ n := by positivity
  have hh0 : (0 : Int) < (2 : Int) ^ (w - 1) := by positivity
  set u : Nat := (v % (2 : Int) ^ n).toNat with hu
  have hunn : (0 : Int) ≤ v % (2 : Int) ^ n := Int.emod_nonneg v (by positivity)
  have hucast : (u : Int) = v % (2 : Int) ^ n := Int.toNat_of_nonneg hunn
  have hult : v % (2 : Int) ^ n < (2 : Int) ^ n := Int.emod_lt_of_pos v hM0
  have hgetD : (GarbledInt.from_int n v).bits.getD i false = Nat.testBit u i := by
    unfold GarbledInt.from_int
    dsimp only
    exact uintBits_getD n u i hin
  rw [hgetD]
  have hupowN : (((2 : Nat) ^ n : Nat) : Int) = (2 : Int) ^ n := by push_cast; ring
  have hwpow : (((2 : Nat) ^ (w - 1) : Nat) : Int) = (2 : Int) ^ (w - 1) := by
    push_cast; ring
  have hmono : (2 : Int) ^ (w - 1) ≤ (2 : Int) ^ n :=
    pow_le_pow_right₀ (by norm_num) (by omega)
  rcases le_or_lt 0 v with hv | hv
  · have hmod : v % (2 : Int) ^ n = v := Int.emod_eq_of_lt hv (by linarith)
    have hui : (u : Int) < (((2 : Nat) ^ (w - 1) : Nat) : Int) := by
      rw [hucast, hmod, hwpow]
      exact hhi
    have hult2 : u < 2 ^ (w - 1) := by exact_mod_cast hui
    have hmono2 : (2 : Nat) ^ (w - 1) ≤ 2 ^ i :=
      Nat.pow_le_pow_right (by norm_num) (by omega)
    rw [Nat.testBit_eq_false_of_lt (by omega)]
    exact (decide_eq_false (not_lt.mpr hv)).symm
  · have hmod : v % (2 : Int) ^ n = v + (2 : Int) ^ n := by
      have h1 : (v + (2 : Int) ^ n * 1) % (2 : Int) ^ n = v % (2 : Int) ^ n :=
        @Int.add_mul_emod_self_left v ((2 : Int) ^ n) 1
      have h2 : (v + (2 : Int) ^ n) % (2 : Int) ^ n = v + (2 : Int) ^ n :=
        Int.emod_eq_of_lt (by linarith) (by linarith)
      calc v % (2 : Int) ^ n = (v + (2 : Int) ^ n * 1) % (2 : Int) ^ n := h1.symm
        _ = (v + (2 : Int) ^ n) % (2 : Int) ^ n := by ring_nf
        _ = v + (2 : Int) ^ n := h2
    have hveq : (u : Int) = v + (2 : Int) ^ n := by rw [hucast, hmod]
    have hlowI : (((2 : Nat) ^ n : Nat) : Int) - (((2 : Nat) ^ (w - 1) : Nat) : Int)
        ≤ (u : Int) := by
      rw [hveq, hupowN, hwpow]
      linarith
    have hhighI : (u : Int) < (((2 : Nat) ^ n : Nat) : Int) := by
      rw [hveq, hupowN]
      linarith
    have hlow : 2 ^ n - 2 ^ (w - 1) ≤ u := by omega
    have hhigh : u < 2 ^ n := by exact_mod_cast hhighI
    have hA0 : 0 < 2 ^ i := Nat.pos_pow_of_pos i (by norm_num)
    have hAB : 2 ^ i * 2 ^ (n - i) = 2 ^ n := by
      rw [← pow_add]
      congr 1
      omega
    have hAB2 : 2 ^ (n - i) * 2 ^ i = 2 ^ n := by
      rw [Nat.mul_comm]
      exact hAB
    have hQA : (2 : Nat) ^ (w - 1) ≤ 2 ^ i :=
      Nat.pow_le_pow_right (by norm_num) (by omega)
    have hdivge : 2 ^ (n - i) - 1 ≤ u / 2 ^ i := by
      rw [Nat.le_div_iff_mul_le hA0]
      have hexp : (2 ^ (n - i) - 1) * 2 ^ i = 2 ^ (n - i) * 2 ^ i - 1 * 2 ^ i :=
        Nat.sub_mul _ _ _
      omega
    have hdivlt : u / 2 ^ i < 2 ^ (n - i) := by
      rw [Nat.div_lt_iff_lt_mul hA0]
      omega
    have hdiv : u / 2 ^ i = 2 ^ (n - i) - 1 := by omega
    have hBeven : 2 ^ (n - i) = 2 * 2 ^ (n - i - 1) := by
      rw [← Nat.pow_succ']
      congr 1
      omega
    have hB1 : 0 < 2 ^ (n - i - 1) := Nat.pos_pow_of_pos _ (by norm_num)
    have hmod2 : (2 ^ (n - i) - 1) % 2 = 1 := by omega
    rw [Nat.testBit_to_div_mod, hdiv, hmod2, decide_eq_true hv]
    rfl

/-- Amended claim C4: on the unsigned path the claim fails — `From<u8>`
asserts `N <= 8`, so constructing `Value<N>` from a u8 aborts whenever N
exceeds the native width instead of zero-extending, and succeeds exactly
for N at most 8, storing the low N bits of the value.  The signed path
(spec-modelled, int.rs is not under src/) sign-extends as the claim
states: a width-w native signed value placed into a wider `GarbledInt<N>`
keeps its signed value and every bit at position w and above equals the
sign bit. -/
theorem claim_C4_amended (n m v : Nat) (w nn : Nat) (vi : Int)
    (hn : 8 < n) (hm : m ≤ 8) (hw : 1 ≤ w) (hwn : w ≤ nn)
    (hlo : -((2 : Int) ^ (w - 1)) ≤ vi) (hhi : vi < (2 : Int) ^ (w - 1)) :
    GarbledUint.from_u8 n v = none
    ∧ (∃ x : GarbledUint m, GarbledUint.from_u8 m v = some x
        ∧ x.bits.length = m ∧ bitsToNat x.bits = v % 2 ^ m)
    ∧ (GarbledInt.from_int nn vi).bits.length = nn
    ∧ GarbledInt.to_int nn (GarbledInt.from_int nn vi) = some vi
    ∧ (∀ i, w ≤ i → i < nn → (GarbledInt.from_int nn vi).bits.getD i false
        = decide (vi < 0)) := by
  have hmono : (2 : Int) ^ (w - 1) ≤ (2 : Int) ^ (nn - 1) :=
    pow_le_pow_right₀ (by norm_num) (by omega)
  refine ⟨?_, ⟨⟨uintBits m v⟩, ?_, uintBits_length m v, bitsToNat_uintBits m v⟩,
    ?_, ?_, from_int_sign_extend w nn vi hw hwn hlo hhi⟩
  · rw [GarbledUint.from_u8, if_neg (by omega)]
  · rw [GarbledUint.from_u8, if_pos hm, uint_new_bits]
  · unfold GarbledInt.from_int
    dsimp only
    exact uintBits_length nn _
  · exact int_roundtrip_aux nn vi (by omega) (by linarith) (by linarith)

/-- Witness for the amended claim C4: width 16 rejects a u8, width 4 keeps
the low four bits of 250, and the width-8 signed value -86 sign-extends
into a `GarbledInt<16>` (keeping its value, with bit 12 equal to the sign
bit). -/
theorem claim_C4_amended_witness :
    GarbledUint.from_u8 16 250 = none
    ∧ (∃ x : GarbledUint 4, GarbledUint.from_u8 4 250 = some x
        ∧ x.bits.length = 4 ∧ bitsToNat x.bits = 250 % 2 ^ 4)
    ∧ (GarbledInt.from_int 16 (-86)).bits.length = 16
    ∧ GarbledInt.to_int 16 (GarbledInt.from_int 16 (-86)) = some (-86)
    ∧ (GarbledInt.from_int 16 (-86)).bits.getD 12 false
        = decide ((-86 : Int) < 0) := by
  have h := claim_C4_amended 16 4 250 8 16 (-86) (by norm_num) (by norm_num)
    (by norm_num) (by norm_num) (by norm_num) (by norm_num)
  exact ⟨h.1, h.2.1, h.2.2.1, h.2.2.2.1, h.2.2.2.2 12 (by norm_num) (by norm_num)⟩

theorem bitsToNat_append_false : ∀ (l : List Bool),
    bitsToNat (l ++ [false]) = bitsToNat l := by
  intro l
  induction l with
  | nil => simp [bitsToNat]
  | cons b rest ih =>
    rw [List.cons_append, bitsToNat, bitsToNat, ih]

theorem bitsToNat_take : ∀ (l : List Bool) (m : Nat),
    bitsToNat (l.take m) = bitsToNat l % 2 ^ m := by
  intro l
  induction l with
  | nil => intro m; simp [bitsToNat]
  | cons b rest ih =>
    intro m
    cases m with
    | zero => simp [bitsToNat, Nat.mod_one]
    | succ m =>
      rw [List.take_succ_cons, bitsToNat, bitsToNat, ih m]
      have hps : 2 ^ (m + 1) = 2 * 2 ^ m := by rw [Nat.pow_succ']
      have hr : bitsToNat rest = 2 ^ m * (bitsToNat rest / 2 ^ m) + bitsToNat rest % 2 ^ m :=
        (Nat.div_add_mod _ _).symm
      have hs : bitsToNat rest % 2 ^ m < 2 ^ m :=
        Nat.mod_lt _ (Nat.pos_pow_of_pos m (by norm_num))
      have hb : (if b = true then 1 else 0) ≤ 1 := by cases b <;> simp
      rw [hps]
      have hlt : (if b = true then 1 else 0) + 2 * (bitsToNat rest % 2 ^ m) < 2 * 2 ^ m := by
        omega
      have h3 : ((if b = true then 1 else 0) + 2 * (bitsToNat rest % 2 ^ m)) % (2 * 2 ^ m)
          = ((if b = true then 1 else 0) + 2 * bitsToNat rest) % (2 * 2 ^ m) :=
        Nat.ModEq.add_left _ (Nat.ModEq.mul_left' 2 (Nat.mod_modEq (bitsToNat rest) (2 ^ m)))
      calc (if b = true then 1 else 0) + 2 * (bitsToNat rest % 2 ^ m)
          = ((if b = true then 1 else 0) + 2 * (bitsToNat rest % 2 ^ m)) % (2 * 2 ^ m) :=
            (Nat.mod_eq_of_lt hlt).symm
        _ = ((if b = true then 1 else 0) + 2 * bitsToNat rest) % (2 * 2 ^ m) := h3

theorem shift_bits_right_some (n : Nat) : ∀ (k : Nat) (l : List Bool),
    l.length = n → 0 < n →
    ∃ l2, shift_bits_right n k l = some l2 ∧ l2.length = n
      ∧ bitsToNat l2 = bitsToNat l / 2 ^ k := by
  intro k
  induction k with
  | zero =>
    intro l hl _
    exact ⟨l, rfl, hl, by simp⟩
  | succ k ih =>
    intro l hl hn
    cases l with
    | nil =>
      exfalso
      simp only [List.length_nil] at hl
      omega
    | cons b rest =>
      have hlen : (rest ++ [false]).length = n := by
        simp only [List.length_append, List.length_singleton]
        simp only [List.length_cons] at hl
        omega
      obtain ⟨l2, hrun, hl2, hval⟩ := ih (rest ++ [false]) hlen hn
      refine ⟨l2, ?_, hl2, ?_⟩
      · rw [shift_bits_right]
        exact hrun
      · rw [hval, bitsToNat_append_false]
        have hb : (if b = true then 1 else 0) ≤ 1 := by cases b <;> simp
        have hdiv : bitsToNat rest = bitsToNat (b :: rest) / 2 := by
          rw [bitsToNat]
          omega
        rw [hdiv, Nat.div_div_eq_div_mul, ← Nat.pow_succ']

theorem shift_bits_left_some (n : Nat) (hn : 0 < n) : ∀ (k : Nat) (l : List Bool),
    l.length = n →
    ∃ l2, shift_bits_left n k l = some l2 ∧ l2.length = n
      ∧ bitsToNat l2 = bitsToNat l * 2 ^ k % 2 ^ n := by
  intro k
  induction k with
  | zero =>
    intro l hl
    refine ⟨l, rfl, hl, ?_⟩
    rw [Nat.pow_zero, Nat.mul_one, Nat.mod_eq_of_lt (hl ▸ bitsToNat_lt l)]
  | succ k ih =>
    intro l hl
    have hguard : 0 < n ∧ n - 1 < l.length := ⟨hn, by omega⟩
    have herase : l.eraseIdx (n - 1) = l.take (n - 1) := by
      rw [List.eraseIdx_eq_take_drop_succ]
      have hnn : n - 1 + 1 = n := by omega
      rw [hnn, List.drop_eq_nil_of_le (by omega), List.append_nil]
    have hlen2 : (false :: l.eraseIdx (n - 1)).length = n := by
      rw [List.length_cons, herase, List.length_take]
      omega
    obtain ⟨l2, hrun, hl2, hval⟩ := ih (false :: l.eraseIdx (n - 1)) hlen2
    refine ⟨l2, ?_, hl2, ?_⟩
    · rw [shift_bits_left, if_pos hguard]
      exact hrun
    · rw [hval]
      have hnewval : bitsToNat (false :: l.eraseIdx (n - 1))
          = 2 * (bitsToNat l % 2 ^ (n - 1)) := by
        rw [bitsToNat, herase, bitsToNat_take]
        simp
      have hps : 2 ^ n = 2 * 2 ^ (n - 1) := by
        have hnn : n - 1 + 1 = n := by omega
        calc 2 ^ n = 2 ^ (n - 1 + 1) := by rw [hnn]
          _ = 2 ^ (n - 1) * 2 := pow_succ 2 (n - 1)
          _ = 2 * 2 ^ (n - 1) := by ring
      have hme : 2 * (bitsToNat l % 2 ^ (n - 1)) * 2 ^ k % 2 ^ n
          = 2 * bitsToNat l * 2 ^ k % 2 ^ n := by
        have h1 : bitsToNat l % 2 ^ (n - 1) ≡ bitsToNat l [MOD 2 ^ (n - 1)] :=
          Nat.mod_modEq _ _
        have h2 : 2 * (bitsToNat l % 2 ^ (n - 1)) ≡ 2 * bitsToNat l [MOD 2 * 2 ^ (n - 1)] :=
          Nat.ModEq.mul_left' 2 h1
        have h3 : 2 * (bitsToNat l % 2 ^ (n - 1)) * 2 ^ k
            ≡ 2 * bitsToNat l * 2 ^ k [MOD 2 * 2 ^ (n - 1)] :=
          Nat.ModEq.mul_right _ h2
        rw [hps]
        exact h3
      rw [hnewval, hme]
      congr 1
      rw [Nat.pow_succ]
      ring

/-- Claim C3: left shift by `k` yields the value `unsigned(x) * 2^k mod 2^N`
(zeros into the low bits, high bits dropped), right shift yields
`unsigned(x) / 2^k` (zeros into the high bits), and right shift on
`GarbledInt<N>` performs the identical zero-filling logical shift of the
same bit vector, not an arithmetic shift. -/
theorem claim_C3_shifts (n k : Nat) (x : GarbledUint n) (xi : GarbledInt n)
    (hx : x.bits.length = n) (hxi : xi.bits.length = n) (hn : 0 < n) :
    (∃ y : GarbledUint n, x.shl k = some y ∧ y.bits.length = n
        ∧ bitsToNat y.bits = bitsToNat x.bits * 2 ^ k % 2 ^ n)
    ∧ (∃ y : GarbledUint n, x.shr k = some y ∧ y.bits.length = n
        ∧ bitsToNat y.bits = bitsToNat x.bits / 2 ^ k)
    ∧ (∃ y : GarbledInt n, xi.shr k = some y ∧ y.bits.length = n
        ∧ bitsToNat y.bits = bitsToNat xi.bits / 2 ^ k)
    ∧ (xi.shr k).map GarbledInt.bits = ((GarbledUint.fromInt xi).shr k).map GarbledUint.bits := by
  obtain ⟨l2, hrun, hl2, hval⟩ := shift_bits_left_some n hn k x.bits hx
  obtain ⟨r2, hrrun, hr2, hrval⟩ := shift_bits_right_some n k x.bits hx hn
  obtain ⟨s2, hsrun, hs2, hsval⟩ := shift_bits_right_some n k xi.bits hxi hn
  refine ⟨⟨⟨l2⟩, ?_, hl2, hval⟩, ⟨⟨r2⟩, ?_, hr2, hrval⟩, ⟨⟨s2⟩, ?_, hs2, hsval⟩, ?_⟩
  · rw [GarbledUint.shl, hrun, Option.map_some']
  · rw [GarbledUint.shr, hrrun, Option.map_some']
  · rw [GarbledInt.shr, hsrun, Option.some_bind, GarbledInt.new, if_pos hs2]
  · rw [GarbledInt.shr, GarbledUint.shr, GarbledUint.fromInt, hsrun]
    rw [Option.some_bind, GarbledInt.new, if_pos hs2]
    rfl

/-- Witness for claim C3 at width 4, shift 1, on the value 9 (1001). -/
theorem claim_C3_shifts_witness :
    (∃ y : GarbledUint 4, GarbledUint.shl ⟨[true, false, false, true]⟩ 1 = some y
        ∧ y.bits.length = 4
        ∧ bitsToNat y.bits = bitsToNat [true, false, false, true] * 2 ^ 1 % 2 ^ 4)
    ∧ (∃ y : GarbledUint 4, GarbledUint.shr ⟨[true, false, false, true]⟩ 1 = some y
        ∧ y.bits.length = 4
        ∧ bitsToNat y.bits = bitsToNat [true, false, false, true] / 2 ^ 1)
    ∧ (∃ y : GarbledInt 4, GarbledInt.shr ⟨[true, false, false, true]⟩ 1 = some y
        ∧ y.bits.length = 4
        ∧ bitsToNat y.bits = bitsToNat [true, false, false, true] / 2 ^ 1)
    ∧ (GarbledInt.shr (⟨[true, false, false, true]⟩ : GarbledInt 4) 1).map
          GarbledInt.bits
        = ((GarbledUint.fromInt (⟨[true, false, false, true]⟩ : GarbledInt 4)).shr 1).map
            GarbledUint.bits :=
  claim_C3_shifts 4 1 ⟨[true, false, false, true]⟩ ⟨[true, false, false, true]⟩
    rfl rfl (by decide)

theorem getElem?_append_left' (l1 l2 : List Bool) (i : Nat) (h : i < l1.length) :
    (l1 ++ l2)[i]? = l1[i]? := by
  rw [List.getElem?_append, if_pos h]

theorem getElem?_eq_some_getD (l : List Bool) (i : Nat) (h : i < l.length) :
    l[i]? = some (l.getD i false) := by
  rw [List.getD_eq_getElem?_getD, List.getElem?_eq_getElem h]
  rfl

theorem getD_append_offset : ∀ (l1 : List Bool) (l2 : List Bool) (k : Nat),
    (l1 ++ l2).getD (l1.length + k) false = l2.getD k false := by
  intro l1
  induction l1 with
  | nil => intro l2 k; simp
  | cons x rest ih =>
    intro l2 k
    simp only [List.cons_append, List.length_cons]
    have hs : rest.length + 1 + k = (rest.length + k) + 1 := by omega
    rw [hs, List.getD_cons_succ, ih]

theorem getD_map_range (n i : Nat) (v : Nat → List Bool) (h : i < n) :
    ((List.range n).map v).getD i [] = v i := by
  rw [List.getD_eq_getElem?_getD, List.getElem?_map, List.getElem?_range h]
  rfl

theorem flatten_getD (c : Nat) : ∀ (ls : List (List Bool)) (i r : Nat),
    (∀ l ∈ ls, l.length = c) → r < c → i < ls.length →
    ls.flatten.getD (c * i + r) false = (ls.getD i []).getD r false := by
  intro ls
  induction ls with
  | nil => intro i r _ _ h; simp at h
  | cons v rest ih =>
    intro i r hlen hr hi
    have hv : v.length = c := hlen v (List.mem_cons_self v rest)
    cases i with
    | zero =>
      rw [List.flatten_cons, Nat.mul_zero, Nat.zero_add]
      have hrv : r < v.length := by omega
      rw [List.getD_cons_zero]
      rw [List.getD_eq_getElem?_getD, getElem?_append_left' v rest.flatten r hrv,
        ← List.getD_eq_getElem?_getD]
    | succ i =>
      rw [List.flatten_cons, List.getD_cons_succ]
      have harith : c * (i + 1) + r = v.length + (c * i + r) := by
        rw [hv]; ring
      rw [harith, getD_append_offset]
      exact ih i r (fun l hl => hlen l (List.mem_cons_of_mem v hl)) hr
        (by simpa using hi)

theorem zipWith_congr_fn (f g : Bool → Bool → Bool) (h : ∀ x y, f x y = g x y) :
    ∀ (l1 l2 : List Bool), List.zipWith f l1 l2 = List.zipWith g l1 l2 := by
  intro l1
  induction l1 with
  | nil => intro l2; simp
  | cons x rest ih =>
    intro l2
    cases l2 with
    | nil => simp
    | cons y rest2 => rw [List.zipWith_cons_cons, List.zipWith_cons_cons, h, ih]

theorem map_range_getD_zipWith (f : Bool → Bool → Bool) :
    ∀ (a b : List Bool) (n : Nat), a.length = n → b.length = n →
    (List.range n).map (fun i => f (a.getD i false) (b.getD i false))
      = List.zipWith f a b := by
  intro a
  induction a with
  | nil =>
    intro b n ha _
    have h0 : n = 0 := by simpa using ha.symm
    subst h0
    simp
  | cons x rest ih =>
    intro b n ha hb
    cases b with
    | nil =>
      exfalso
      simp only [List.length_nil] at hb
      simp only [List.length_cons] at ha
      omega
    | cons y rest2 =>
      cases n with
      | zero => simp at ha
      | succ m =>
        rw [List.range_succ_eq_map, List.map_cons, List.map_map]
        simp only [List.getD_cons_zero, List.zipWith_cons_cons]
        congr 1
        have hcomp : ((fun i => f ((x :: rest).getD i false) ((y :: rest2).getD i false))
            ∘ Nat.succ) = fun i => f (rest.getD i false) (rest2.getD i false) := by
          funext i
          simp [Function.comp, List.getD_cons_succ]
        rw [hcomp]
        exact ih rest2 m (by simpa using ha) (by simpa using hb)

theorem runGates_append (s : SimState) (g1 g2 : List Gate) :
    runGates s (g1 ++ g2) = (runGates s g1).bind (fun s2 => runGates s2 g2) := by
  induction g1 generalizing s with
  | nil => simp [runGates]
  | cons g gs ih =>
    simp only [List.cons_append, runGates]
    cases stepGate s g with
    | none => simp
    | some s2 => simp [ih]

theorem runGates_replicate_InContrib : ∀ (bs ws es : List Bool),
    runGates ⟨ws, bs, es⟩ (List.replicate bs.length Gate.InContrib)
      = some ⟨ws ++ bs, [], es⟩ := by
  intro bs
  induction bs with
  | nil => intro ws es; simp [runGates]
  | cons b rest ih =>
    intro ws es
    simp only [List.length_cons, List.replicate_succ, runGates, stepGate]
    simp only [Option.some_bind]
    rw [ih (ws ++ [b]) es]
    simp [List.append_assoc]

theorem runGates_replicate_InEval : ∀ (bs ws cs : List Bool),
    runGates ⟨ws, cs, bs⟩ (List.replicate bs.length Gate.InEval)
      = some ⟨ws ++ bs, cs, []⟩ := by
  intro bs
  induction bs with
  | nil => intro ws cs; simp [runGates]
  | cons b rest ih =>
    intro ws cs
    simp only [List.length_cons, List.replicate_succ, runGates, stepGate]
    simp only [Option.some_bind]
    rw [ih (ws ++ [b]) cs]
    simp [List.append_assoc]

theorem runGates_chunks (base : List Bool) (c m : Nat)
    (chunk : Nat → List Gate) (vals : Nat → List Bool)
    (hc : ∀ i, i < m → (vals i).length = c)
    (hstep : ∀ i cs, i < m → cs.length = c * i →
      runGates ⟨base ++ cs, [], []⟩ (chunk i)
        = some ⟨base ++ (cs ++ vals i), [], []⟩) :
    ∀ (k j : Nat) (cs : List Bool), j + k ≤ m → cs.length = c * j →
      runGates ⟨base ++ cs, [], []⟩ ((List.range' j k).map chunk).flatten
        = some ⟨base ++ (cs ++ ((List.range' j k).map vals).flatten), [], []⟩ := by
  intro k
  induction k with
  | zero =>
    intro j cs _ _
    simp [runGates]
  | succ k ih =>
    intro j cs hjk hcs
    rw [List.range'_succ]
    simp only [List.map_cons, List.flatten_cons]
    rw [runGates_append, hstep j cs (by omega) hcs, Option.some_bind]
    have hlen2 : (cs ++ vals j).length = c * (j + 1) := by
      rw [List.length_append, hcs, hc j (by omega)]
      ring
    rw [ih (j + 1) (cs ++ vals j) (by omega) hlen2]
    simp [List.append_assoc]

theorem flatten_map_singleton {α β : Type} : ∀ (l : List α) (f : α → β),
    ((l.map fun i => [f i]).flatten) = l.map f := by
  intro l f
  induction l with
  | nil => simp
  | cons x rest ih => simp [ih]

theorem mapM_getElem?_of_valid : ∀ (outs : List Nat) (W : List Bool),
    (∀ i ∈ outs, i < W.length) →
    outs.mapM (fun i => W[i]?) = some (outs.map (fun i => W.getD i false)) := by
  intro outs
  induction outs with
  | nil => intro W _; rfl
  | cons o rest ih =>
    intro W hv
    rw [List.mapM_cons, getElem?_eq_some_getD W o (hv o (List.mem_cons_self o rest))]
    rw [ih W (fun i hi => hv i (List.mem_cons_of_mem o hi))]
    rfl

theorem wire_read_lo (a b cs : List Bool) (n i : Nat) (ha : a.length = n) (hi : i < n) :
    ((a ++ b) ++ cs)[i]? = some (a.getD i false) := by
  rw [getElem?_append_left' _ _ _ (by rw [List.length_append]; omega)]
  rw [getElem?_append_left' _ _ _ (by omega)]
  exact getElem?_eq_some_getD a i (by omega)

theorem wire_read_hi (a b cs : List Bool) (n i : Nat) (ha : a.length = n)
    (hb : b.length = n) (hi : i < n) :
    ((a ++ b) ++ cs)[n + i]? = some (b.getD i false) := by
  rw [getElem?_append_left' _ _ _ (by rw [List.length_append]; omega)]
  rw [List.getElem?_append_right (by omega)]
  have hidx : n + i - a.length = i := by omega
  rw [hidx]
  exact getElem?_eq_some_getD b i (by omega)

theorem read_concrete (W tail : List Bool) (idx r : Nat) (h : W.length + r = idx)
    (hr : r < tail.length) :
    (W ++ tail)[idx]? = some (tail.getD r false) := by
  subst h
  rw [List.getElem?_append_right (by omega)]
  have hidx : W.length + r - W.length = r := by omega
  rw [hidx]
  exact getElem?_eq_some_getD tail r hr

theorem stepGate_Xor (s : SimState) (i j : Nat) (x y : Bool)
    (hx : s.wires[i]? = some x) (hy : s.wires[j]? = some y) :
    stepGate s (Gate.Xor i j)
      = some ⟨s.wires ++ [Bool.xor x y], s.contribLeft, s.evalLeft⟩ := by
  simp [stepGate, hx, hy]

theorem stepGate_And (s : SimState) (i j : Nat) (x y : Bool)
    (hx : s.wires[i]? = some x) (hy : s.wires[j]? = some y) :
    stepGate s (Gate.And i j)
      = some ⟨s.wires ++ [x && y], s.contribLeft, s.evalLeft⟩ := by
  simp [stepGate, hx, hy]

theorem stepGate_Not (s : SimState) (i : Nat) (x : Bool)
    (hx : s.wires[i]? = some x) :
    stepGate s (Gate.Not i)
      = some ⟨s.wires ++ [!x], s.contribLeft, s.evalLeft⟩ := by
  simp [stepGate, hx]

theorem runGates_replicate_InContrib' (n : Nat) (bs ws es : List Bool)
    (h : bs.length = n) :
    runGates ⟨ws, bs, es⟩ (List.replicate n Gate.InContrib) = some ⟨ws ++ bs, [], es⟩ := by
  subst h
  exact runGates_replicate_InContrib bs ws es

theorem runGates_replicate_InEval' (n : Nat) (bs ws cs : List Bool)
    (h : bs.length = n) :
    runGates ⟨ws, cs, bs⟩ (List.replicate n Gate.InEval) = some ⟨ws ++ bs, cs, []⟩ := by
  subst h
  exact runGates_replicate_InEval bs ws cs

theorem mapM_range'_take : ∀ (cnt : Nat) (R W : List Bool) (m : Nat),
    W.length = m → cnt ≤ R.length →
    (List.range' m cnt).mapM (fun i => (W ++ R)[i]?) = some (R.take cnt) := by
  intro cnt
  induction cnt with
  | zero => intro R W m _ _; rfl
  | succ cnt ih =>
    intro R W m hW hcnt
    cases R with
    | nil => simp at hcnt
    | cons x rest =>
      rw [List.range'_succ, List.mapM_cons]
      have h1 : (W ++ x :: rest)[m]? = some x := by
        have hx : (W ++ x :: rest)[m]? = some ((x :: rest).getD 0 false) :=
          read_concrete W (x :: rest) m 0 (by omega) (by simp)
        simpa using hx
      have h2 : (List.range' (m + 1) cnt).mapM (fun i => (W ++ x :: rest)[i]?)
          = some (rest.take cnt) := by
        have hW2 : (W ++ [x]).length = m + 1 := by simp [hW]
        have hr := ih rest (W ++ [x]) (m + 1) hW2 (by simpa using hcnt)
        rw [List.append_assoc] at hr
        simpa using hr
      rw [h1, h2]
      rfl

theorem flatten_length_const {α : Type} (c : Nat) : ∀ (ls : List (List α)),
    (∀ l ∈ ls, l.length = c) → ls.flatten.length = c * ls.length := by
  intro ls
  induction ls with
  | nil => intro _; simp
  | cons v rest ih =>
    intro h
    rw [List.flatten_cons, List.length_append, h v (List.mem_cons_self v rest),
      ih (fun l hl => h l (List.mem_cons_of_mem v hl)), List.length_cons]
    ring

theorem map_range_getD_map (f : Bool → Bool) : ∀ (l : List Bool) (n : Nat),
    l.length = n →
    (List.range n).map (fun i => f (l.getD i false)) = l.map f := by
  intro l
  induction l with
  | nil =>
    intro n h
    have h0 : n = 0 := by simpa using h.symm
    subst h0
    simp
  | cons x rest ih =>
    intro n h
    cases n with
    | zero => simp at h
    | succ m =>
      rw [List.range_succ_eq_map, List.map_cons, List.map_map, List.map_cons]
      simp only [List.getD_cons_zero]
      congr 1
      have hcomp : ((fun i => f ((x :: rest).getD i false)) ∘ Nat.succ)
          = fun i => f (rest.getD i false) := by
        funext i
        simp [Function.comp, List.getD_cons_succ]
      rw [hcomp]
      exact ih m (by simpa using h)

theorem runGates_chunks0 (base : List Bool) (c m : Nat)
    (chunk : Nat → List Gate) (vals : Nat → List Bool)
    (hc : ∀ i, i < m → (vals i).length = c)
    (hstep : ∀ i cs, i < m → cs.length = c * i →
      runGates ⟨base ++ cs, [], []⟩ (chunk i)
        = some ⟨base ++ (cs ++ vals i), [], []⟩)
    (k : Nat) (hk : k ≤ m) :
    runGates ⟨base, [], []⟩ ((List.range' 0 k).map chunk).flatten
      = some ⟨base ++ ((List.range' 0 k).map vals).flatten, [], []⟩ := by
  have h := runGates_chunks base c m chunk vals hc hstep k 0 [] (by omega) (by simp)
  simpa using h

theorem bas_gates_run (n : Nat) (a b : List Bool) (ha : a.length = n) (hb : b.length = n)
    (g : Nat → Nat → Gate) (f : Bool → Bool → Bool)
    (hg : ∀ (s : SimState) (i j : Nat) (x y : Bool), s.wires[i]? = some x →
      s.wires[j]? = some y →
      stepGate s (g i j) = some ⟨s.wires ++ [f x y], s.contribLeft, s.evalLeft⟩) :
    runGates ⟨[], a, b⟩
      (List.replicate n Gate.InContrib ++ List.replicate n Gate.InEval
        ++ (List.range n).map (fun i => g i (n + i)))
      = some ⟨(a ++ b) ++ List.zipWith f a b, [], []⟩ := by
  rw [runGates_append, runGates_append, runGates_replicate_InContrib' n a [] b ha,
    Option.some_bind, runGates_replicate_InEval' n b ([] ++ a) [] hb, Option.some_bind]
  simp only [List.nil_append]
  rw [← flatten_map_singleton (List.range n) (fun i => g i (n + i))]
  rw [List.range_eq_range' n]
  have hstep : ∀ i cs, i < n → cs.length = 1 * i →
      runGates ⟨(a ++ b) ++ cs, [], []⟩ [g i (n + i)]
        = some ⟨(a ++ b) ++ (cs ++ [f (a.getD i false) (b.getD i false)]), [], []⟩ := by
    intro i cs hi _
    have hx := wire_read_lo a b cs n i ha hi
    have hy := wire_read_hi a b cs n i ha hb hi
    simp only [runGates]
    rw [hg _ i (n + i) _ _ hx hy, Option.some_bind]
    simp only [runGates, List.append_assoc]
  rw [runGates_chunks0 (a ++ b) 1 n (fun i => [g i (n + i)])
    (fun i => [f (a.getD i false) (b.getD i false)]) (fun i _ => rfl) hstep n
    (le_refl n)]
  rw [flatten_map_singleton, ← List.range_eq_range' n,
    map_range_getD_zipWith f a b n ha hb]

theorem build_and_simulate_some (n : Nat) (lhs rhs : GarbledUint n)
    (ha : lhs.bits.length = n) (hb : rhs.bits.length = n)
    (g : Nat → Nat → Gate) (f : Bool → Bool → Bool)
    (hg : ∀ (s : SimState) (i j : Nat) (x y : Bool), s.wires[i]? = some x →
      s.wires[j]? = some y →
      stepGate s (g i j) = some ⟨s.wires ++ [f x y], s.contribLeft, s.evalLeft⟩) :
    build_and_simulate n lhs (some rhs) g
      = some ⟨List.zipWith f lhs.bits rhs.bits⟩ := by
  have hz : (List.zipWith f lhs.bits rhs.bits).length = n := by
    rw [List.length_zipWith, ha, hb, Nat.min_self]
  unfold build_and_simulate simulate build_and_simulate_circuit
  dsimp only
  rw [bas_gates_run n lhs.bits rhs.bits ha hb g f hg, Option.some_bind]
  rw [mapM_range'_take n (List.zipWith f lhs.bits rhs.bits) (lhs.bits ++ rhs.bits)
    (2 * n) (by rw [List.length_append, ha, hb]; ring) (by omega)]
  have htake : (List.zipWith f lhs.bits rhs.bits).take n
      = List.zipWith f lhs.bits rhs.bits :=
    List.take_of_length_le (by omega)
  rw [Option.some_bind, GarbledUint.new]
  simp only [htake]
  rw [if_pos hz]

theorem bitxor_bits (n : Nat) (a b : GarbledUint n)
    (ha : a.bits.length = n) (hb : b.bits.length = n) :
    GarbledUint.bitxor a b = some ⟨List.zipWith Bool.xor a.bits b.bits⟩ :=
  build_and_simulate_some n a b ha hb Gate.Xor Bool.xor
    (fun s i j x y hx hy => stepGate_Xor s i j x y hx hy)

theorem bitand_bits (n : Nat) (a b : GarbledUint n)
    (ha : a.bits.length = n) (hb : b.bits.length = n) :
    GarbledUint.bitand a b = some ⟨List.zipWith (fun x y => x && y) a.bits b.bits⟩ :=
  build_and_simulate_some n a b ha hb Gate.And (fun x y => x && y)
    (fun s i j x y hx hy => stepGate_And s i j x y hx hy)

theorem not_gates_run (n : Nat) (a : List Bool) (ha : a.length = n) :
    runGates ⟨[], a, a⟩
      (List.replicate n Gate.InContrib ++ List.replicate n Gate.InEval
        ++ (List.range (n * 2)).map Gate.Not)
      = some ⟨(a ++ a) ++ (a ++ a).map (fun v => !v), [], []⟩ := by
  rw [runGates_append, runGates_append, runGates_replicate_InContrib' n a [] a ha,
    Option.some_bind, runGates_replicate_InEval' n a ([] ++ a) [] ha, Option.some_bind]
  simp only [List.nil_append]
  rw [← flatten_map_singleton (List.range (n * 2)) Gate.Not]
  rw [List.range_eq_range' (n * 2)]
  have hlen2 : (a ++ a).length = n * 2 := by rw [List.length_append, ha]; ring
  have hstep : ∀ i cs, i < n * 2 → cs.length = 1 * i →
      runGates ⟨(a ++ a) ++ cs, [], []⟩ [Gate.Not i]
        = some ⟨(a ++ a) ++ (cs ++ [!((a ++ a).getD i false)]), [], []⟩ := by
    intro i cs hi _
    have hx : ((a ++ a) ++ cs)[i]? = some ((a ++ a).getD i false) := by
      rw [getElem?_append_left' _ _ _ (by omega)]
      exact getElem?_eq_some_getD (a ++ a) i (by omega)
    simp only [runGates]
    rw [stepGate_Not _ i _ hx, Option.some_bind]
    simp only [runGates, List.append_assoc]
  rw [runGates_chunks0 (a ++ a) 1 (n * 2) (fun i => [Gate.Not i])
    (fun i => [!((a ++ a).getD i false)]) (fun i _ => rfl) hstep (n * 2)
    (le_refl _)]
  rw [flatten_map_singleton, ← List.range_eq_range' (n * 2),
    map_range_getD_map (fun v => !v) (a ++ a) (n * 2) hlen2]

theorem build_and_simulate_not_some (n : Nat) (x : GarbledUint n)
    (hx : x.bits.length = n) :
    build_and_simulate_not n x = some ⟨x.bits.map (fun v => !v)⟩ := by
  have hmlen : (x.bits.map (fun v => !v)).length = n := by simp [hx]
  unfold build_and_simulate_not simulate build_and_simulate_not_circuit
  dsimp only
  rw [not_gates_run n x.bits hx, Option.some_bind]
  rw [List.map_append]
  rw [mapM_range'_take n (x.bits.map (fun v => !v) ++ x.bits.map (fun v => !v))
    (x.bits ++ x.bits) (2 * n) (by rw [List.length_append, hx]; ring)
    (by rw [List.length_append]; omega)]
  have htake : (x.bits.map (fun v => !v) ++ x.bits.map (fun v => !v)).take n
      = x.bits.map (fun v => !v) := by
    have hle : n ≤ (x.bits.map (fun v => !v)).length := by omega
    rw [List.take_append_of_le_length hle]
    exact List.take_of_length_le (by omega)
  rw [Option.some_bind, GarbledUint.new]
  simp only [htake]
  rw [if_pos hmlen]

theorem foldl_chunk_steps (c : Nat) (chunkAt : Nat → Nat → List Gate)
    (hlen : ∀ L i, (chunkAt L i).length = c)
    (step : List Gate × List Nat → Nat → List Gate × List Nat)
    (hstepEq : ∀ acc i, step acc i
      = (acc.1 ++ chunkAt acc.1.length i, acc.2 ++ [acc.1.length + (c - 1)])) :
    ∀ (k j m : Nat) (gs : List Gate) (os : List Nat), gs.length = m + c * j →
    (List.range' j k).foldl step (gs, os)
      = (gs ++ ((List.range' j k).map (fun i => chunkAt (m + c * i) i)).flatten,
         os ++ (List.range' j k).map (fun i => m + c * i + (c - 1))) := by
  intro k
  induction k with
  | zero =>
    intro j m gs os _
    simp
  | succ k ih =>
    intro j m gs os h
    rw [List.range'_succ, List.foldl_cons, hstepEq]
    dsimp only
    rw [h]
    have hlen2 : (gs ++ chunkAt (m + c * j) j).length = m + c * (j + 1) := by
      rw [List.length_append, h, hlen]
      ring
    rw [ih (j + 1) m _ _ hlen2]
    simp [List.append_assoc]

theorem composite_simulate (n : Nat) (a b : List Bool)
    (ha : a.length = n) (hb : b.length = n)
    (c r : Nat) (hr : r < c)
    (chunk : Nat → List Gate)
    (vals : Bool → Bool → List Bool)
    (hvlen : ∀ x y, (vals x y).length = c)
    (hstep : ∀ i cs, i < n → cs.length = c * i →
      runGates ⟨(a ++ b) ++ cs, [], []⟩ (chunk i)
        = some ⟨(a ++ b) ++ (cs ++ vals (a.getD i false) (b.getD i false)), [], []⟩) :
    simulate ⟨List.replicate n Gate.InContrib ++ List.replicate n Gate.InEval
        ++ ((List.range n).map chunk).flatten,
      (List.range n).map (fun i => 2 * n + c * i + r)⟩ a b
      = some (List.zipWith (fun x y => (vals x y).getD r false) a b) := by
  unfold simulate
  dsimp only
  rw [runGates_append, runGates_append, runGates_replicate_InContrib' n a [] b ha,
    Option.some_bind, runGates_replicate_InEval' n b ([] ++ a) [] hb, Option.some_bind]
  simp only [List.nil_append]
  rw [List.range_eq_range' n]
  rw [runGates_chunks0 (a ++ b) c n chunk
    (fun i => vals (a.getD i false) (b.getD i false)) (fun i _ => hvlen _ _) hstep n
    (le_refl n), Option.some_bind]
  have hJmem : ∀ l ∈ (List.range' 0 n).map
      (fun i => vals (a.getD i false) (b.getD i false)), l.length = c := by
    intro l hl
    obtain ⟨i, _, rfl⟩ := List.mem_map.mp hl
    exact hvlen _ _
  have hJlen : (((List.range' 0 n).map
      (fun i => vals (a.getD i false) (b.getD i false))).flatten).length = c * n := by
    rw [flatten_length_const c _ hJmem, List.length_map, List.length_range']
  have hvalid : ∀ idx ∈ (List.range' 0 n).map (fun i => 2 * n + c * i + r),
      idx < ((a ++ b) ++ ((List.range' 0 n).map
        (fun i => vals (a.getD i false) (b.getD i false))).flatten).length := by
    intro idx hidx
    obtain ⟨i, hi, rfl⟩ := List.mem_map.mp hidx
    have hi' : i < n := by
      have hm := List.mem_range'_1.mp hi
      omega
    rw [List.length_append, List.length_append, ha, hb, hJlen]
    have h1 : c * (i + 1) ≤ c * n := Nat.mul_le_mul_left c (by omega)
    have h2 : c * (i + 1) = c * i + c := by ring
    omega
  rw [mapM_getElem?_of_valid _ _ hvalid]
  rw [List.map_map]
  congr 1
  rw [← List.range_eq_range' n,
    ← map_range_getD_zipWith (fun x y => (vals x y).getD r false) a b n ha hb]
  apply List.map_congr_left
  intro i hi
  have hi' : i < n := List.mem_range.mp hi
  have hab : (a ++ b).length = 2 * n := by rw [List.length_append, ha, hb]; ring
  simp only [Function.comp]
  have hidx : 2 * n + c * i + r = (a ++ b).length + (c * i + r) := by omega
  rw [hidx, getD_append_offset]
  have hJmem2 : ∀ l ∈ (List.range n).map
      (fun i => vals (a.getD i false) (b.getD i false)), l.length = c := by
    intro l hl
    obtain ⟨i2, _, rfl⟩ := List.mem_map.mp hl
    exact hvlen _ _
  rw [flatten_getD c _ i r hJmem2 hr
    (by rw [List.length_map, List.length_range]; omega)]
  rw [getD_map_range n i _ hi']

theorem or_step_eq (n : Nat) (acc : List Gate × List Nat) (i : Nat) :
    or_step n acc i
      = (acc.1 ++ [Gate.Xor i (n + i), Gate.And i (n + i),
          Gate.Xor acc.1.length (acc.1.length + 1)],
         acc.2 ++ [acc.1.length + (3 - 1)]) := by
  unfold or_step
  simp [List.append_assoc]

theorem or_circuit_eq (n : Nat) :
    build_and_simulate_or_circuit n
      = ⟨List.replicate n Gate.InContrib ++ List.replicate n Gate.InEval
          ++ ((List.range n).map (fun i => [Gate.Xor i (n + i), Gate.And i (n + i),
              Gate.Xor (2 * n + 3 * i) (2 * n + 3 * i + 1)])).flatten,
         (List.range n).map (fun i => 2 * n + 3 * i + 2)⟩ := by
  unfold build_and_simulate_or_circuit
  dsimp only
  rw [List.range_eq_range' n]
  rw [foldl_chunk_steps 3
    (fun L i => [Gate.Xor i (n + i), Gate.And i (n + i), Gate.Xor L (L + 1)])
    (fun L i => rfl) (or_step n) (or_step_eq n) n 0 (2 * n)
    (List.replicate n Gate.InContrib ++ List.replicate n Gate.InEval) []
    (by rw [List.length_append, List.length_replicate, List.length_replicate]; omega)]
  rw [← List.range_eq_range' n]
  simp [List.append_assoc]

theorem or_chunk_run (n : Nat) (a b : List Bool) (ha : a.length = n) (hb : b.length = n)
    (i : Nat) (cs : List Bool) (hi : i < n) (hcs : cs.length = 3 * i) :
    runGates ⟨(a ++ b) ++ cs, [], []⟩
      [Gate.Xor i (n + i), Gate.And i (n + i),
        Gate.Xor (2 * n + 3 * i) (2 * n + 3 * i + 1)]
      = some ⟨(a ++ b) ++ (cs ++ [Bool.xor (a.getD i false) (b.getD i false),
          a.getD i false && b.getD i false,
          Bool.xor (Bool.xor (a.getD i false) (b.getD i false))
            (a.getD i false && b.getD i false)]), [], []⟩ := by
  set x := a.getD i false with hxdef
  set y := b.getD i false with hydef
  have hW0 : ((a ++ b) ++ cs).length = 2 * n + 3 * i := by
    rw [List.length_append, List.length_append, ha, hb, hcs]
    ring
  have hassoc1 : ((a ++ b) ++ cs) ++ [Bool.xor x y]
      = (a ++ b) ++ (cs ++ [Bool.xor x y]) := by
    rw [List.append_assoc]
  have h1 : stepGate ⟨(a ++ b) ++ cs, [], []⟩ (Gate.Xor i (n + i))
      = some ⟨((a ++ b) ++ cs) ++ [Bool.xor x y], [], []⟩ :=
    stepGate_Xor _ i (n + i) x y (wire_read_lo a b cs n i ha hi)
      (wire_read_hi a b cs n i ha hb hi)
  have h2 : stepGate ⟨((a ++ b) ++ cs) ++ [Bool.xor x y], [], []⟩ (Gate.And i (n + i))
      = some ⟨(((a ++ b) ++ cs) ++ [Bool.xor x y]) ++ [x && y], [], []⟩ := by
    apply stepGate_And
    · rw [hassoc1]
      exact wire_read_lo a b (cs ++ [Bool.xor x y]) n i ha hi
    · rw [hassoc1]
      exact wire_read_hi a b (cs ++ [Bool.xor x y]) n i ha hb hi
  have hflat : (((a ++ b) ++ cs) ++ [Bool.xor x y]) ++ [x && y]
      = ((a ++ b) ++ cs) ++ [Bool.xor x y, x && y] := by
    simp
  have h3 : stepGate ⟨(((a ++ b) ++ cs) ++ [Bool.xor x y]) ++ [x && y], [], []⟩
      (Gate.Xor (2 * n + 3 * i) (2 * n + 3 * i + 1))
      = some ⟨((((a ++ b) ++ cs) ++ [Bool.xor x y]) ++ [x && y])
          ++ [Bool.xor (Bool.xor x y) (x && y)], [], []⟩ := by
    apply stepGate_Xor
    · rw [hflat]
      exact read_concrete ((a ++ b) ++ cs) [Bool.xor x y, x && y] (2 * n + 3 * i) 0
        (by omega) (by simp)
    · rw [hflat]
      exact read_concrete ((a ++ b) ++ cs) [Bool.xor x y, x && y] (2 * n + 3 * i + 1) 1
        (by omega) (by simp)
  simp only [runGates, h1, Option.some_bind, h2, h3]
  simp [List.append_assoc]

theorem build_and_simulate_or_some (n : Nat) (lhs rhs : GarbledUint n)
    (ha : lhs.bits.length = n) (hb : rhs.bits.length = n) :
    build_and_simulate_or n lhs (some rhs)
      = some ⟨List.zipWith (fun x y => x || y) lhs.bits rhs.bits⟩ := by
  unfold build_and_simulate_or
  dsimp only
  rw [or_circuit_eq n]
  rw [composite_simulate n lhs.bits rhs.bits ha hb 3 2 (by norm_num)
    (fun i => [Gate.Xor i (n + i), Gate.And i (n + i),
      Gate.Xor (2 * n + 3 * i) (2 * n + 3 * i + 1)])
    (fun x y => [Bool.xor x y, x && y, Bool.xor (Bool.xor x y) (x && y)])
    (fun x y => rfl)
    (or_chunk_run n lhs.bits rhs.bits ha hb)]
  rw [Option.some_bind, GarbledUint.new]
  have hzl : (List.zipWith
      (fun x y => ([Bool.xor x y, x && y,
        Bool.xor (Bool.xor x y) (x && y)]).getD 2 false) lhs.bits rhs.bits).length
      = n := by
    rw [List.length_zipWith, ha, hb, Nat.min_self]
  rw [if_pos hzl]
  congr 1
  congr 1
  exact zipWith_congr_fn _ _ (by decide) lhs.bits rhs.bits

theorem bitor_bits (n : Nat) (a b : GarbledUint n)
    (ha : a.bits.length = n) (hb : b.bits.length = n) :
    GarbledUint.bitor a b = some ⟨List.zipWith (fun x y => x || y) a.bits b.bits⟩ :=
  build_and_simulate_or_some n a b ha hb

theorem nand_step_eq (n : Nat) (acc : List Gate × List Nat) (i : Nat) :
    nand_step n acc i
      = (acc.1 ++ [Gate.And i (n + i), Gate.Not acc.1.length],
         acc.2 ++ [acc.1.length + (2 - 1)]) := by
  unfold nand_step
  simp [List.append_assoc]

theorem nand_circuit_eq (n : Nat) :
    build_and_simulate_nand_circuit n
      = ⟨List.replicate n Gate.InContrib ++ List.replicate n Gate.InEval
          ++ ((List.range n).map (fun i => [Gate.And i (n + i),
              Gate.Not (2 * n + 2 * i)])).flatten,
         (List.range n).map (fun i => 2 * n + 2 * i + 1)⟩ := by
  unfold build_and_simulate_nand_circuit
  dsimp only
  rw [List.range_eq_range' n]
  rw [foldl_chunk_steps 2
    (fun L i => [Gate.And i (n + i), Gate.Not L])
    (fun L i => rfl) (nand_step n) (nand_step_eq n) n 0 (2 * n)
    (List.replicate n Gate.InContrib ++ List.replicate n Gate.InEval) []
    (by rw [List.length_append, List.length_replicate, List.length_replicate]; omega)]
  rw [← List.range_eq_range' n]
  simp [List.append_assoc]

theorem nand_chunk_run (n : Nat) (a b : List Bool) (ha : a.length = n)
    (hb : b.length = n) (i : Nat) (cs : List Bool) (hi : i < n)
    (hcs : cs.length = 2 * i) :
    runGates ⟨(a ++ b) ++ cs, [], []⟩
      [Gate.And i (n + i), Gate.Not (2 * n + 2 * i)]
      = some ⟨(a ++ b) ++ (cs ++ [a.getD i false && b.getD i false,
          !(a.getD i false && b.getD i false)]), [], []⟩ := by
  set x := a.getD i false with hxdef
  set y := b.getD i false with hydef
  have hW0 : ((a ++ b) ++ cs).length = 2 * n + 2 * i := by
    rw [List.length_append, List.length_append, ha, hb, hcs]
    ring
  have h1 : stepGate ⟨(a ++ b) ++ cs, [], []⟩ (Gate.And i (n + i))
      = some ⟨((a ++ b) ++ cs) ++ [x && y], [], []⟩ :=
    stepGate_And _ i (n + i) x y (wire_read_lo a b cs n i ha hi)
      (wire_read_hi a b cs n i ha hb hi)
  have h2 : stepGate ⟨((a ++ b) ++ cs) ++ [x && y], [], []⟩ (Gate.Not (2 * n + 2 * i))
      = some ⟨(((a ++ b) ++ cs) ++ [x && y]) ++ [!(x && y)], [], []⟩ := by
    apply stepGate_Not
    exact read_concrete ((a ++ b) ++ cs) [x && y] (2 * n + 2 * i) 0 (by omega) (by simp)
  simp only [runGates, h1, Option.some_bind, h2]
  simp [List.append_assoc]

theorem build_and_simulate_nand_some (n : Nat) (lhs rhs : GarbledUint n)
    (ha : lhs.bits.length = n) (hb : rhs.bits.length = n) :
    build_and_simulate_nand n lhs (some rhs)
      = some ⟨List.zipWith (fun x y => !(x && y)) lhs.bits rhs.bits⟩ := by
  unfold build_and_simulate_nand
  dsimp only
  rw [nand_circuit_eq n]
  rw [composite_simulate n lhs.bits rhs.bits ha hb 2 1 (by norm_num)
    (fun i => [Gate.And i (n + i), Gate.Not (2 * n + 2 * i)])
    (fun x y => [x && y, !(x && y)])
    (fun x y => rfl)
    (nand_chunk_run n lhs.bits rhs.bits ha hb)]
  rw [Option.some_bind, GarbledUint.new]
  have hzl : (List.zipWith (fun x y => ([x && y, !(x && y)]).getD 1 false)
      lhs.bits rhs.bits).length = n := by
    rw [List.length_zipWith, ha, hb, Nat.min_self]
  rw [if_pos hzl]
  congr 1

theorem nand_bits (n : Nat) (a b : GarbledUint n)
    (ha : a.bits.length = n) (hb : b.bits.length = n) :
    GarbledUint.nand a b = some ⟨List.zipWith (fun x y => !(x && y)) a.bits b.bits⟩ :=
  build_and_simulate_nand_some n a b ha hb

theorem xnor_step_eq (n : Nat) (acc : List Gate × List Nat) (i : Nat) :
    xnor_step n acc i
      = (acc.1 ++ [Gate.Xor i (n + i), Gate.Not acc.1.length],
         acc.2 ++ [acc.1.length + (2 - 1)]) := by
  unfold xnor_step
  simp [List.append_assoc]

theorem xnor_circuit_eq (n : Nat) :
    build_and_simulate_xnor_circuit n
      = ⟨List.replicate n Gate.InContrib ++ List.replicate n Gate.InEval
          ++ ((List.range n).map (fun i => [Gate.Xor i (n + i),
              Gate.Not (2 * n + 2 * i)])).flatten,
         (List.range n).map (fun i => 2 * n + 2 * i + 1)⟩ := by
  unfold build_and_simulate_xnor_circuit
  dsimp only
  rw [List.range_eq_range' n]
  rw [foldl_chunk_steps 2
    (fun L i => [Gate.Xor i (n + i), Gate.Not L])
    (fun L i => rfl) (xnor_step n) (xnor_step_eq n) n 0 (2 * n)
    (List.replicate n Gate.InContrib ++ List.replicate n Gate.InEval) []
    (by rw [List.length_append, List.length_replicate, List.length_replicate]; omega)]
  rw [← List.range_eq_range' n]
  simp [List.append_assoc]

theorem xnor_chunk_run (n : Nat) (a b : List Bool) (ha : a.length = n)
    (hb : b.length = n) (i : Nat) (cs : List Bool) (hi : i < n)
    (hcs : cs.length = 2 * i) :
    runGates ⟨(a ++ b) ++ cs, [], []⟩
      [Gate.Xor i (n + i), Gate.Not (2 * n + 2 * i)]
      = some ⟨(a ++ b) ++ (cs ++ [Bool.xor (a.getD i false) (b.getD i false),
          !(Bool.xor (a.getD i false) (b.getD i false))]), [], []⟩ := by
  set x := a.getD i false with hxdef
  set y := b.getD i false with hydef
  have hW0 : ((a ++ b) ++ cs).length = 2 * n + 2 * i := by
    rw [List.length_append, List.length_append, ha, hb, hcs]
    ring
  have h1 : stepGate ⟨(a ++ b) ++ cs, [], []⟩ (Gate.Xor i (n + i))
      = some ⟨((a ++ b) ++ cs) ++ [Bool.xor x y], [], []⟩ :=
    stepGate_Xor _ i (n + i) x y (wire_read_lo a b cs n i ha hi)
      (wire_read_hi a b cs n i ha hb hi)
  have h2 : stepGate ⟨((a ++ b) ++ cs) ++ [Bool.xor x y], [], []⟩
      (Gate.Not (2 * n + 2 * i))
      = some ⟨(((a ++ b) ++ cs) ++ [Bool.xor x y]) ++ [!(Bool.xor x y)], [], []⟩ := by
    apply stepGate_Not
    exact read_concrete ((a ++ b) ++ cs) [Bool.xor x y] (2 * n + 2 * i) 0
      (by omega) (by simp)
  simp only [runGates, h1, Option.some_bind, h2]
  simp [List.append_assoc]

theorem build_and_simulate_xnor_some (n : Nat) (lhs rhs : GarbledUint n)
    (ha : lhs.bits.length = n) (hb : rhs.bits.length = n) :
    build_and_simulate_xnor n lhs (some rhs)
      = some ⟨List.zipWith (fun x y => !(Bool.xor x y)) lhs.bits rhs.bits⟩ := by
  unfold build_and_simulate_xnor
  dsimp only
  rw [xnor_circuit_eq n]
  rw [composite_simulate n lhs.bits rhs.bits ha hb 2 1 (by norm_num)
    (fun i => [Gate.Xor i (n + i), Gate.Not (2 * n + 2 * i)])
    (fun x y => [Bool.xor x y, !(Bool.xor x y)])
    (fun x y => rfl)
    (xnor_chunk_run n lhs.bits rhs.bits ha hb)]
  rw [Option.some_bind, GarbledUint.new]
  have hzl : (List.zipWith (fun x y => ([Bool.xor x y, !(Bool.xor x y)]).getD 1 false)
      lhs.bits rhs.bits).length = n := by
    rw [List.length_zipWith, ha, hb, Nat.min_self]
  rw [if_pos hzl]
  congr 1

theorem xnor_bits (n : Nat) (a b : GarbledUint n)
    (ha : a.bits.length = n) (hb : b.bits.length = n) :
    GarbledUint.xnor a b
      = some ⟨List.zipWith (fun x y => !(Bool.xor x y)) a.bits b.bits⟩ :=
  build_and_simulate_xnor_some n a b ha hb

theorem nor_step_eq (n : Nat) (acc : List Gate × List Nat) (i : Nat) :
    nor_step n acc i
      = (acc.1 ++ [Gate.Xor i (n + i), Gate.And i (n + i),
          Gate.Xor acc.1.length (acc.1.length + 1), Gate.Not (acc.1.length + 2)],
         acc.2 ++ [acc.1.length + (4 - 1)]) := by
  unfold nor_step
  simp [List.append_assoc]

theorem nor_circuit_eq (n : Nat) :
    build_and_simulate_nor_circuit n
      = ⟨List.replicate n Gate.InContrib ++ List.replicate n Gate.InEval
          ++ ((List.range n).map (fun i => [Gate.Xor i (n + i), Gate.And i (n + i),
              Gate.Xor (2 * n + 4 * i) (2 * n + 4 * i + 1),
              Gate.Not (2 * n + 4 * i + 2)])).flatten,
         (List.range n).map (fun i => 2 * n + 4 * i + 3)⟩ := by
  unfold build_and_simulate_nor_circuit
  dsimp only
  rw [List.range_eq_range' n]
  rw [foldl_chunk_steps 4
    (fun L i => [Gate.Xor i (n + i), Gate.And i (n + i), Gate.Xor L (L + 1),
      Gate.Not (L + 2)])
    (fun L i => rfl) (nor_step n) (nor_step_eq n) n 0 (2 * n)
    (List.replicate n Gate.InContrib ++ List.replicate n Gate.InEval) []
    (by rw [List.length_append, List.length_replicate, List.length_replicate]; omega)]
  rw [← List.range_eq_range' n]
  simp [List.append_assoc]

theorem nor_chunk_run (n : Nat) (a b : List Bool) (ha : a.length = n)
    (hb : b.length = n) (i : Nat) (cs : List Bool) (hi : i < n)
    (hcs : cs.length = 4 * i) :
    runGates ⟨(a ++ b) ++ cs, [], []⟩
      [Gate.Xor i (n + i), Gate.And i (n + i),
        Gate.Xor (2 * n + 4 * i) (2 * n + 4 * i + 1), Gate.Not (2 * n + 4 * i + 2)]
      = some ⟨(a ++ b) ++ (cs ++ [Bool.xor (a.getD i false) (b.getD i false),
          a.getD i false && b.getD i false,
          Bool.xor (Bool.xor (a.getD i false) (b.getD i false))
            (a.getD i false && b.getD i false),
          !(Bool.xor (Bool.xor (a.getD i false) (b.getD i false))
            (a.getD i false && b.getD i false))]), [], []⟩ := by
  set x := a.getD i false with hxdef
  set y := b.getD i false with hydef
  have hW0 : ((a ++ b) ++ cs).length = 2 * n + 4 * i := by
    rw [List.length_append, List.length_append, ha, hb, hcs]
    ring
  have hassoc1 : ((a ++ b) ++ cs) ++ [Bool.xor x y]
      = (a ++ b) ++ (cs ++ [Bool.xor x y]) := by
    rw [List.append_assoc]
  have h1 : stepGate ⟨(a ++ b) ++ cs, [], []⟩ (Gate.Xor i (n + i))
      = some ⟨((a ++ b) ++ cs) ++ [Bool.xor x y], [], []⟩ :=
    stepGate_Xor _ i (n + i) x y (wire_read_lo a b cs n i ha hi)
      (wire_read_hi a b cs n i ha hb hi)
  have h2 : stepGate ⟨((a ++ b) ++ cs) ++ [Bool.xor x y], [], []⟩ (Gate.And i (n + i))
      = some ⟨(((a ++ b) ++ cs) ++ [Bool.xor x y]) ++ [x && y], [], []⟩ := by
    apply stepGate_And
    · rw [hassoc1]
      exact wire_read_lo a b (cs ++ [Bool.xor x y]) n i ha hi
    · rw [hassoc1]
      exact wire_read_hi a b (cs ++ [Bool.xor x y]) n i ha hb hi
  have hflat : (((a ++ b) ++ cs) ++ [Bool.xor x y]) ++ [x && y]
      = ((a ++ b) ++ cs) ++ [Bool.xor x y, x && y] := by
    simp
  have h3 : stepGate ⟨(((a ++ b) ++ cs) ++ [Bool.xor x y]) ++ [x && y], [], []⟩
      (Gate.Xor (2 * n + 4 * i) (2 * n + 4 * i + 1))
      = some ⟨((((a ++ b) ++ cs) ++ [Bool.xor x y]) ++ [x && y])
          ++ [Bool.xor (Bool.xor x y) (x && y)], [], []⟩ := by
    apply stepGate_Xor
    · rw [hflat]
      exact read_concrete ((a ++ b) ++ cs) [Bool.xor x y, x && y] (2 * n + 4 * i) 0
        (by omega) (by simp)
    · rw [hflat]
      exact read_concrete ((a ++ b) ++ cs) [Bool.xor x y, x && y] (2 * n + 4 * i + 1) 1
        (by omega) (by simp)
  have hflat2 : ((((a ++ b) ++ cs) ++ [Bool.xor x y]) ++ [x && y])
      ++ [Bool.xor (Bool.xor x y) (x && y)]
      = ((a ++ b) ++ cs) ++ [Bool.xor x y, x && y, Bool.xor (Bool.xor x y) (x && y)] := by
    simp
  have h4 : stepGate ⟨((((a ++ b) ++ cs) ++ [Bool.xor x y]) ++ [x && y])
      ++ [Bool.xor (Bool.xor x y) (x && y)], [], []⟩ (Gate.Not (2 * n + 4 * i + 2))
      = some ⟨(((((a ++ b) ++ cs) ++ [Bool.xor x y]) ++ [x && y])
          ++ [Bool.xor (Bool.xor x y) (x && y)])
          ++ [!(Bool.xor (Bool.xor x y) (x && y))], [], []⟩ := by
    apply stepGate_Not
    rw [hflat2]
    exact read_concrete ((a ++ b) ++ cs)
      [Bool.xor x y, x && y, Bool.xor (Bool.xor x y) (x && y)] (2 * n + 4 * i + 2) 2
      (by omega) (by simp)
  simp only [runGates, h1, Option.some_bind, h2, h3, h4]
  simp [List.append_assoc]

theorem build_and_simulate_nor_some (n : Nat) (lhs rhs : GarbledUint n)
    (ha : lhs.bits.length = n) (hb : rhs.bits.length = n) :
    build_and_simulate_nor n lhs (some rhs)
      = some ⟨List.zipWith (fun x y => !(x || y)) lhs.bits rhs.bits⟩ := by
  unfold build_and_simulate_nor
  dsimp only
  rw [nor_circuit_eq n]
  rw [composite_simulate n lhs.bits rhs.bits ha hb 4 3 (by norm_num)
    (fun i => [Gate.Xor i (n + i), Gate.And i (n + i),
      Gate.Xor (2 * n + 4 * i) (2 * n + 4 * i + 1), Gate.Not (2 * n + 4 * i + 2)])
    (fun x y => [Bool.xor x y, x && y, Bool.xor (Bool.xor x y) (x && y),
      !(Bool.xor (Bool.xor x y) (x && y))])
    (fun x y => rfl)
    (nor_chunk_run n lhs.bits rhs.bits ha hb)]
  rw [Option.some_bind, GarbledUint.new]
  have hzl : (List.zipWith
      (fun x y => ([Bool.xor x y, x && y, Bool.xor (Bool.xor x y) (x && y),
        !(Bool.xor (Bool.xor x y) (x && y))]).getD 3 false) lhs.bits rhs.bits).length
      = n := by
    rw [List.length_zipWith, ha, hb, Nat.min_self]
  rw [if_pos hzl]
  congr 1
  congr 1
  exact zipWith_congr_fn _ _ (by decide) lhs.bits rhs.bits

theorem nor_bits (n : Nat) (a b : GarbledUint n)
    (ha : a.bits.length = n) (hb : b.bits.length = n) :
    GarbledUint.nor a b = some ⟨List.zipWith (fun x y => !(x || y)) a.bits b.bits⟩ :=
  build_and_simulate_nor_some n a b ha hb

theorem bitnot_bits (n : Nat) (a : GarbledUint n) (ha : a.bits.length = n) :
    GarbledUint.bitnot a = some ⟨a.bits.map (fun v => !v)⟩ := by
  rw [GarbledUint.bitnot]
  exact build_and_simulate_not_some n a ha

/-- Claim C1: the circuit-evaluated bitwise operations on `GarbledUint<N>`
and on the `GarbledInt<N>` wrappers return the value whose i-th bit is the
native boolean function of the operands' i-th bits: XOR, AND, OR, NOT,
NAND, NOR and XNOR all agree with the native bitwise results. -/
theorem claim_C1_bitwise (n : Nat) (a b : GarbledUint n) (ai bi : GarbledInt n)
    (ha : a.bits.length = n) (hb : b.bits.length = n)
    (hai : ai.bits.length = n) (hbi : bi.bits.length = n) :
    GarbledUint.bitxor a b = some ⟨List.zipWith Bool.xor a.bits b.bits⟩
    ∧ GarbledUint.bitand a b = some ⟨List.zipWith (fun x y => x && y) a.bits b.bits⟩
    ∧ GarbledUint.bitor a b = some ⟨List.zipWith (fun x y => x || y) a.bits b.bits⟩
    ∧ GarbledUint.bitnot a = some ⟨a.bits.map (fun v => !v)⟩
    ∧ GarbledUint.nand a b = some ⟨List.zipWith (fun x y => !(x && y)) a.bits b.bits⟩
    ∧ GarbledUint.nor a b = some ⟨List.zipWith (fun x y => !(x || y)) a.bits b.bits⟩
    ∧ GarbledUint.xnor a b
        = some ⟨List.zipWith (fun x y => !(Bool.xor x y)) a.bits b.bits⟩
    ∧ (GarbledInt.bitxor ai bi).map GarbledInt.bits
        = some (List.zipWith Bool.xor ai.bits bi.bits)
    ∧ (GarbledInt.bitand ai bi).map GarbledInt.bits
        = some (List.zipWith (fun x y => x && y) ai.bits bi.bits)
    ∧ (GarbledInt.bitor ai bi).map GarbledInt.bits
        = some (List.zipWith (fun x y => x || y) ai.bits bi.bits)
    ∧ (GarbledInt.bitnot ai).map GarbledInt.bits = some (ai.bits.map (fun v => !v))
    ∧ (GarbledInt.nand ai bi).map GarbledInt.bits
        = some (List.zipWith (fun x y => !(x && y)) ai.bits bi.bits)
    ∧ (GarbledInt.nor ai bi).map GarbledInt.bits
        = some (List.zipWith (fun x y => !(x || y)) ai.bits bi.bits)
    ∧ (GarbledInt.xnor ai bi).map GarbledInt.bits
        = some (List.zipWith (fun x y => !(Bool.xor x y)) ai.bits bi.bits) := by
  refine ⟨bitxor_bits n a b ha hb, bitand_bits n a b ha hb, bitor_bits n a b ha hb,
    bitnot_bits n a ha, nand_bits n a b ha hb, nor_bits n a b ha hb,
    xnor_bits n a b ha hb, ?_, ?_, ?_, ?_, ?_, ?_, ?_⟩
  · rw [GarbledInt.bitxor, build_and_simulate_some n (GarbledUint.fromInt ai)
      (GarbledUint.fromInt bi) hai hbi Gate.Xor Bool.xor
      (fun s i j x y hx hy => stepGate_Xor s i j x y hx hy)]
    rfl
  · rw [GarbledInt.bitand, build_and_simulate_some n (GarbledUint.fromInt ai)
      (GarbledUint.fromInt bi) hai hbi Gate.And (fun x y => x && y)
      (fun s i j x y hx hy => stepGate_And s i j x y hx hy)]
    rfl
  · rw [GarbledInt.bitor, build_and_simulate_or_some n (GarbledUint.fromInt ai)
      (GarbledUint.fromInt bi) hai hbi]
    rfl
  · rw [GarbledInt.bitnot, build_and_simulate_not_some n (GarbledUint.fromInt ai) hai]
    rfl
  · rw [GarbledInt.nand, build_and_simulate_nand_some n (GarbledUint.fromInt ai)
      (GarbledUint.fromInt bi) hai hbi]
    rfl
  · rw [GarbledInt.nor, build_and_simulate_nor_some n (GarbledUint.fromInt ai)
      (GarbledUint.fromInt bi) hai hbi]
    rfl
  · rw [GarbledInt.xnor, build_and_simulate_xnor_some n (GarbledUint.fromInt ai)
      (GarbledUint.fromInt bi) hai hbi]
    rfl

/-- Witness for claim C1 at width 2 on the operands 01 and 10. -/
theorem claim_C1_bitwise_witness :
    GarbledUint.bitxor (⟨[true, false]⟩ : GarbledUint 2) ⟨[false, true]⟩
        = some ⟨List.zipWith Bool.xor [true, false] [false, true]⟩
    ∧ GarbledUint.bitand (⟨[true, false]⟩ : GarbledUint 2) ⟨[false, true]⟩
        = some ⟨List.zipWith (fun x y => x && y) [true, false] [false, true]⟩
    ∧ GarbledUint.bitor (⟨[true, false]⟩ : GarbledUint 2) ⟨[false, true]⟩
        = some ⟨List.zipWith (fun x y => x || y) [true, false] [false, true]⟩
    ∧ GarbledUint.bitnot (⟨[true, false]⟩ : GarbledUint 2)
        = some ⟨[true, false].map (fun v => !v)⟩
    ∧ GarbledUint.nand (⟨[true, false]⟩ : GarbledUint 2) ⟨[false, true]⟩
        = some ⟨List.zipWith (fun x y => !(x && y)) [true, false] [false, true]⟩
    ∧ GarbledUint.nor (⟨[true, false]⟩ : GarbledUint 2) ⟨[false, true]⟩
        = some ⟨List.zipWith (fun x y => !(x || y)) [true, false] [false, true]⟩
    ∧ GarbledUint.xnor (⟨[true, false]⟩ : GarbledUint 2) ⟨[false, true]⟩
        = some ⟨List.zipWith (fun x y => !(Bool.xor x y)) [true, false] [false, true]⟩
    ∧ (GarbledInt.bitxor (⟨[true, false]⟩ : GarbledInt 2) ⟨[false, true]⟩).map
          GarbledInt.bits
        = some (List.zipWith Bool.xor [true, false] [false, true])
    ∧ (GarbledInt.bitand (⟨[true, false]⟩ : GarbledInt 2) ⟨[false, true]⟩).map
          GarbledInt.bits
        = some (List.zipWith (fun x y => x && y) [true, false] [false, true])
    ∧ (GarbledInt.bitor (⟨[true, false]⟩ : GarbledInt 2) ⟨[false, true]⟩).map
          GarbledInt.bits
        = some (List.zipWith (fun x y => x || y) [true, false] [false, true])
    ∧ (GarbledInt.bitnot (⟨[true, false]⟩ : GarbledInt 2)).map GarbledInt.bits
        = some ([true, false].map (fun v => !v))
    ∧ (GarbledInt.nand (⟨[true, false]⟩ : GarbledInt 2) ⟨[false, true]⟩).map
          GarbledInt.bits
        = some (List.zipWith (fun x y => !(x && y)) [true, false] [false, true])
    ∧ (GarbledInt.nor (⟨[true, false]⟩ : GarbledInt 2) ⟨[false, true]⟩).map
          GarbledInt.bits
        = some (List.zipWith (fun x y => !(x || y)) [true, false] [false, true])
    ∧ (GarbledInt.xnor (⟨[true, false]⟩ : GarbledInt 2) ⟨[false, true]⟩).map
          GarbledInt.bits
        = some (List.zipWith (fun x y => !(Bool.xor x y)) [true, false] [false, true]) :=
  claim_C1_bitwise 2 ⟨[true, false]⟩ ⟨[false, true]⟩ ⟨[true, false]⟩ ⟨[false, true]⟩
    rfl rfl rfl rfl

/-- Claim C10: the binary bitwise circuit operations on `GarbledUint<N>`
are commutative — swapping the operands gives the identical result for
XOR, AND, OR, NAND, NOR and XNOR. -/
theorem claim_C10_commutative (n : Nat) (a b : GarbledUint n)
    (ha : a.bits.length = n) (hb : b.bits.length = n) :
    GarbledUint.bitxor a b = GarbledUint.bitxor b a
    ∧ GarbledUint.bitand a b = GarbledUint.bitand b a
    ∧ GarbledUint.bitor a b = GarbledUint.bitor b a
    ∧ GarbledUint.nand a b = GarbledUint.nand b a
    ∧ GarbledUint.nor a b = GarbledUint.nor b a
    ∧ GarbledUint.xnor a b = GarbledUint.xnor b a := by
  refine ⟨?_, ?_, ?_, ?_, ?_, ?_⟩
  · rw [bitxor_bits n a b ha hb, bitxor_bits n b a hb ha]
    congr 1
    congr 1
    exact List.zipWith_comm_of_comm _ (by decide) _ _
  · rw [bitand_bits n a b ha hb, bitand_bits n b a hb ha]
    congr 1
    congr 1
    exact List.zipWith_comm_of_comm _ (by decide) _ _
  · rw [bitor_bits n a b ha hb, bitor_bits n b a hb ha]
    congr 1
    congr 1
    exact List.zipWith_comm_of_comm _ (by decide) _ _
  · rw [nand_bits n a b ha hb, nand_bits n b a hb ha]
    congr 1
    congr 1
    exact List.zipWith_comm_of_comm _ (by decide) _ _
  · rw [nor_bits n a b ha hb, nor_bits n b a hb ha]
    congr 1
    congr 1
    exact List.zipWith_comm_of_comm _ (by decide) _ _
  · rw [xnor_bits n a b ha hb, xnor_bits n b a hb ha]
    congr 1
    congr 1
    exact List.zipWith_comm_of_comm _ (by decide) _ _

/-- Witness for claim C10 at width 2 on the operands 01 and 11. -/
theorem claim_C10_commutative_witness :
    GarbledUint.bitxor (⟨[true, false]⟩ : GarbledUint 2) ⟨[true, true]⟩
        = GarbledUint.bitxor ⟨[true, true]⟩ ⟨[true, false]⟩
    ∧ GarbledUint.bitand (⟨[true, false]⟩ : GarbledUint 2) ⟨[true, true]⟩
        = GarbledUint.bitand ⟨[true, true]⟩ ⟨[true, false]⟩
    ∧ GarbledUint.bitor (⟨[true, false]⟩ : GarbledUint 2) ⟨[true, true]⟩
        = GarbledUint.bitor ⟨[true, true]⟩ ⟨[true, false]⟩
    ∧ GarbledUint.nand (⟨[true, false]⟩ : GarbledUint 2) ⟨[true, true]⟩
        = GarbledUint.nand ⟨[true, true]⟩ ⟨[true, false]⟩
    ∧ GarbledUint.nor (⟨[true, false]⟩ : GarbledUint 2) ⟨[true, true]⟩
        = GarbledUint.nor ⟨[true, true]⟩ ⟨[true, false]⟩
    ∧ GarbledUint.xnor (⟨[true, false]⟩ : GarbledUint 2) ⟨[true, true]⟩
        = GarbledUint.xnor ⟨[true, true]⟩ ⟨[true, false]⟩ :=
  claim_C10_commutative 2 ⟨[true, false]⟩ ⟨[true, true]⟩ rfl rfl

theorem bind_new_all (n : Nat) (o : Option (List Bool)) :
    (o.bind (GarbledUint.new n)).all (fun y => decide (y.bits.length = n)) = true := by
  cases o with
  | none => rfl
  | some l =>
    rw [Option.some_bind]
    unfold GarbledUint.new
    split
    · simp_all
    · rfl

/-- Claim C5: constructing a `GarbledUint<N>` from a bit vector of length
other than N aborts, a vector of length exactly N is stored as given, and
every value a bitwise synthesizer produces has bit length N: on length-N
operands each of the seven operations returns a value of bit length N,
and on arbitrary operands any value ever produced still has bit length N
because every synthesizer rebuilds its result through `GarbledUint::new`. -/
theorem claim_C5_width_tagging (n : Nat) (bs1 bs2 : List Bool) (a b c : GarbledUint n)
    (rhs : Option (GarbledUint n)) (g : Nat → Nat → Gate)
    (ha : a.bits.length = n) (hb : b.bits.length = n)
    (h1 : bs1.length ≠ n) (h2 : bs2.length = n) :
    GarbledUint.new n bs1 = none
    ∧ GarbledUint.new n bs2 = some ⟨bs2⟩
    ∧ (∃ y, GarbledUint.bitxor a b = some y ∧ y.bits.length = n)
    ∧ (∃ y, GarbledUint.bitand a b = some y ∧ y.bits.length = n)
    ∧ (∃ y, GarbledUint.bitor a b = some y ∧ y.bits.length = n)
    ∧ (∃ y, GarbledUint.bitnot a = some y ∧ y.bits.length = n)
    ∧ (∃ y, GarbledUint.nand a b = some y ∧ y.bits.length = n)
    ∧ (∃ y, GarbledUint.nor a b = some y ∧ y.bits.length = n)
    ∧ (∃ y, GarbledUint.xnor a b = some y ∧ y.bits.length = n)
    ∧ (build_and_simulate n c rhs g).all (fun y => decide (y.bits.length = n)) = true
    ∧ (build_and_simulate_not n c).all (fun y => decide (y.bits.length = n)) = true
    ∧ (build_and_simulate_or n c rhs).all (fun y => decide (y.bits.length = n)) = true
    ∧ (build_and_simulate_nand n c rhs).all
        (fun y => decide (y.bits.length = n)) = true
    ∧ (build_and_simulate_nor n c rhs).all
        (fun y => decide (y.bits.length = n)) = true
    ∧ (build_and_simulate_xnor n c rhs).all
        (fun y => decide (y.bits.length = n)) = true := by
  refine ⟨?_, ?_, ?_, ?_, ?_, ?_, ?_, ?_, ?_, ?_, ?_, ?_, ?_, ?_, ?_⟩
  · rw [GarbledUint.new, if_neg h1]
  · rw [GarbledUint.new, if_pos h2]
  · exact ⟨⟨List.zipWith Bool.xor a.bits b.bits⟩, bitxor_bits n a b ha hb,
      by simp [List.length_zipWith, ha, hb]⟩
  · exact ⟨⟨List.zipWith (fun x y => x && y) a.bits b.bits⟩, bitand_bits n a b ha hb,
      by simp [List.length_zipWith, ha, hb]⟩
  · exact ⟨⟨List.zipWith (fun x y => x || y) a.bits b.bits⟩, bitor_bits n a b ha hb,
      by simp [List.length_zipWith, ha, hb]⟩
  · exact ⟨⟨a.bits.map (fun v => !v)⟩, bitnot_bits n a ha, by simp [ha]⟩
  · exact ⟨⟨List.zipWith (fun x y => !(x && y)) a.bits b.bits⟩,
      nand_bits n a b ha hb, by simp [List.length_zipWith, ha, hb]⟩
  · exact ⟨⟨List.zipWith (fun x y => !(x || y)) a.bits b.bits⟩,
      nor_bits n a b ha hb, by simp [List.length_zipWith, ha, hb]⟩
  · exact ⟨⟨List.zipWith (fun x y => !(Bool.xor x y)) a.bits b.bits⟩,
      xnor_bits n a b ha hb, by simp [List.length_zipWith, ha, hb]⟩
  · unfold build_and_simulate
    exact bind_new_all n _
  · unfold build_and_simulate_not
    exact bind_new_all n _
  · unfold build_and_simulate_or
    exact bind_new_all n _
  · unfold build_and_simulate_nand
    exact bind_new_all n _
  · unfold build_and_simulate_nor
    exact bind_new_all n _
  · unfold build_and_simulate_xnor
    exact bind_new_all n _

/-- Witness for claim C5 at width 2: the empty vector is rejected, a
length-2 vector is stored, each operation on length-2 operands returns a
width-2 value, and the generic conjuncts hold for the XOR synthesizer. -/
theorem claim_C5_width_tagging_witness :
    GarbledUint.new 2 [] = none
    ∧ GarbledUint.new 2 [true, false] = some ⟨[true, false]⟩
    ∧ (∃ y, GarbledUint.bitxor (⟨[true, false]⟩ : GarbledUint 2) ⟨[false, true]⟩
        = some y ∧ y.bits.length = 2)
    ∧ (∃ y, GarbledUint.bitand (⟨[true, false]⟩ : GarbledUint 2) ⟨[false, true]⟩
        = some y ∧ y.bits.length = 2)
    ∧ (∃ y, GarbledUint.bitor (⟨[true, false]⟩ : GarbledUint 2) ⟨[false, true]⟩
        = some y ∧ y.bits.length = 2)
    ∧ (∃ y, GarbledUint.bitnot (⟨[true, false]⟩ : GarbledUint 2)
        = some y ∧ y.bits.length = 2)
    ∧ (∃ y, GarbledUint.nand (⟨[true, false]⟩ : GarbledUint 2) ⟨[false, true]⟩
        = some y ∧ y.bits.length = 2)
    ∧ (∃ y, GarbledUint.nor (⟨[true, false]⟩ : GarbledUint 2) ⟨[false, true]⟩
        = some y ∧ y.bits.length = 2)
    ∧ (∃ y, GarbledUint.xnor (⟨[true, false]⟩ : GarbledUint 2) ⟨[false, true]⟩
        = some y ∧ y.bits.length = 2)
    ∧ (build_and_simulate 2 ⟨[true, false]⟩ (some ⟨[false, true]⟩) Gate.Xor).all
        (fun y => decide (y.bits.length = 2)) = true
    ∧ (build_and_simulate_not 2 ⟨[true, false]⟩).all
        (fun y => decide (y.bits.length = 2)) = true
    ∧ (build_and_simulate_or 2 ⟨[true, false]⟩ (some ⟨[false, true]⟩)).all
        (fun y => decide (y.bits.length = 2)) = true
    ∧ (build_and_simulate_nand 2 ⟨[true, false]⟩ (some ⟨[false, true]⟩)).all
        (fun y => decide (y.bits.length = 2)) = true
    ∧ (build_and_simulate_nor 2 ⟨[true, false]⟩ (some ⟨[false, true]⟩)).all
        (fun y => decide (y.bits.length = 2)) = true
    ∧ (build_and_simulate_xnor 2 ⟨[true, false]⟩ (some ⟨[false, true]⟩)).all
        (fun y => decide (y.bits.length = 2)) = true :=
  claim_C5_width_tagging 2 [] [true, false] ⟨[true, false]⟩ ⟨[false, true]⟩
    ⟨[true, false]⟩ (some ⟨[false, true]⟩) Gate.Xor rfl rfl (by decide) (by decide)

theorem zipWith_first : ∀ (l1 l2 : List Bool), l1.length = l2.length →
    List.zipWith (fun x _ => x) l1 l2 = l1 := by
  intro l1
  induction l1 with
  | nil => intro l2 _; simp
  | cons x rest ih =>
    intro l2 h
    cases l2 with
    | nil => simp at h
    | cons y rest2 =>
      rw [List.zipWith_cons_cons, ih rest2 (by simpa using h)]

theorem zipWith_second : ∀ (l1 l2 : List Bool), l1.length = l2.length →
    List.zipWith (fun _ y => y) l1 l2 = l2 := by
  intro l1
  induction l1 with
  | nil =>
    intro l2 h
    cases l2 with
    | nil => simp
    | cons y rest2 => simp at h
  | cons x rest ih =>
    intro l2 h
    cases l2 with
    | nil => simp at h
    | cons y rest2 =>
      rw [List.zipWith_cons_cons, ih rest2 (by simpa using h)]

/-- Claim C8: `GarbledUint::mux(c, t, f)` returns a value bitwise equal to
`t` when the condition bit is 1 and bitwise equal to `f` when it is 0. -/
theorem claim_C8_mux (n : Nat) (c : GarbledUint 1) (t f : GarbledUint n)
    (ht : t.bits.length = n) (hf : f.bits.length = n) :
    (c.bits = [true] → (GarbledUint.mux c t f).bits = t.bits)
    ∧ (c.bits = [false] → (GarbledUint.mux c t f).bits = f.bits) := by
  constructor
  · intro hc
    unfold GarbledUint.mux build_and_execute_mux
    dsimp only
    rw [hc]
    simp only [List.getD_cons_zero]
    rw [zipWith_congr_fn _ (fun x y => x) (by decide) t.bits f.bits]
    exact zipWith_first t.bits f.bits (by omega)
  · intro hc
    unfold GarbledUint.mux build_and_execute_mux
    dsimp only
    rw [hc]
    simp only [List.getD_cons_zero]
    rw [zipWith_congr_fn _ (fun x y => y) (by decide) t.bits f.bits]
    exact zipWith_second t.bits f.bits (by omega)

/-- Witness for claim C8 at width 2: the mux selects 01 under condition 1
and 10 under condition 0. -/
theorem claim_C8_mux_witness :
    (GarbledUint.mux ⟨[true]⟩ (⟨[true, false]⟩ : GarbledUint 2) ⟨[false, true]⟩).bits
        = [true, false]
    ∧ (GarbledUint.mux ⟨[false]⟩ (⟨[true, false]⟩ : GarbledUint 2) ⟨[false, true]⟩).bits
        = [false, true] :=
  ⟨(claim_C8_mux 2 ⟨[true]⟩ ⟨[true, false]⟩ ⟨[false, true]⟩ rfl rfl).1 rfl,
   (claim_C8_mux 2 ⟨[false]⟩ ⟨[true, false]⟩ ⟨[false, true]⟩ rfl rfl).2 rfl⟩

theorem filter_nonInput_replicate (n : Nat) (g : Gate) (h : isInputGate g = true) :
    (List.replicate n g).filter (fun x => !isInputGate x) = [] := by
  induction n with
  | zero => rfl
  | succ m ih =>
    rw [List.replicate_succ, List.filter_cons]
    simp [h, ih]

theorem filter_nonInput_all (l : List Gate) (h : ∀ g ∈ l, isInputGate g = false) :
    l.filter (fun x => !isInputGate x) = l := by
  rw [List.filter_eq_self]
  intro g hg
  rw [h g hg]
  rfl

/-- Counterexample to claim C7: at width 1 the NOT synthesizer emits two
non-input gates, not one gate per bit position. -/
theorem claim_C7_counterexample :
    (nonInputGates (build_and_simulate_not_circuit 1)).length = 2
    ∧ ¬ (nonInputGates (build_and_simulate_not_circuit 1)).length = 1 := by
  decide

/-- Amended claim C7: for XOR and AND the emitted circuit contains exactly
N non-input gates beyond the input prefix, the i-th being the gate for bit
position i; the NOT circuit instead contains 2N Not gates — one for each
of the 2N input wires, the i-th being `Not(i)` — of which the outputs
select the first N. -/
theorem claim_C7_amended (n : Nat) :
    nonInputGates (build_and_simulate_circuit n Gate.Xor)
      = (List.range n).map (fun i => Gate.Xor i (n + i))
    ∧ nonInputGates (build_and_simulate_circuit n Gate.And)
      = (List.range n).map (fun i => Gate.And i (n + i))
    ∧ nonInputGates (build_and_simulate_not_circuit n)
      = (List.range (n * 2)).map Gate.Not
    ∧ (nonInputGates (build_and_simulate_circuit n Gate.Xor)).length = n
    ∧ (nonInputGates (build_and_simulate_circuit n Gate.And)).length = n
    ∧ (nonInputGates (build_and_simulate_not_circuit n)).length = n * 2 := by
  have hxor : nonInputGates (build_and_simulate_circuit n Gate.Xor)
      = (List.range n).map (fun i => Gate.Xor i (n + i)) := by
    unfold nonInputGates build_and_simulate_circuit
    dsimp only
    rw [List.filter_append, List.filter_append]
    rw [filter_nonInput_replicate n Gate.InContrib rfl,
      filter_nonInput_replicate n Gate.InEval rfl]
    rw [filter_nonInput_all _ (by
      intro g hg
      obtain ⟨i, _, rfl⟩ := List.mem_map.mp hg
      rfl)]
    simp
  have hand : nonInputGates (build_and_simulate_circuit n Gate.And)
      = (List.range n).map (fun i => Gate.And i (n + i)) := by
    unfold nonInputGates build_and_simulate_circuit
    dsimp only
    rw [List.filter_append, List.filter_append]
    rw [filter_nonInput_replicate n Gate.InContrib rfl,
      filter_nonInput_replicate n Gate.InEval rfl]
    rw [filter_nonInput_all _ (by
      intro g hg
      obtain ⟨i, _, rfl⟩ := List.mem_map.mp hg
      rfl)]
    simp
  have hnot : nonInputGates (build_and_simulate_not_circuit n)
      = (List.range (n * 2)).map Gate.Not := by
    unfold nonInputGates build_and_simulate_not_circuit
    dsimp only
    rw [List.filter_append, List.filter_append]
    rw [filter_nonInput_replicate n Gate.InContrib rfl,
      filter_nonInput_replicate n Gate.InEval rfl]
    rw [filter_nonInput_all _ (by
      intro g hg
      obtain ⟨i, _, rfl⟩ := List.mem_map.mp hg
      rfl)]
    simp
  refine ⟨hxor, hand, hnot, ?_, ?_, ?_⟩ <;>
    simp [hxor, hand, hnot]

theorem gatesRefsOkFrom_append : ∀ (l1 l2 : List Gate) (k : Nat),
    gatesRefsOkFrom k (l1 ++ l2)
      = (gatesRefsOkFrom k l1 && gatesRefsOkFrom (k + l1.length) l2) := by
  intro l1
  induction l1 with
  | nil =>
    intro l2 k
    simp [gatesRefsOkFrom]
  | cons g gs ih =>
    intro l2 k
    simp only [List.cons_append, gatesRefsOkFrom, List.length_cons]
    have hs : gs.append l2 = gs ++ l2 := rfl
    rw [hs, ih l2 (k + 1), Bool.and_assoc]
    have harith : k + 1 + gs.length = k + (gs.length + 1) := by omega
    rw [harith]

theorem gatesRefsOkFrom_replicate_input (g : Gate)
    (h : ∀ j, gateRefsOk j g = true) : ∀ (n k : Nat),
    gatesRefsOkFrom k (List.replicate n g) = true := by
  intro n
  induction n with
  | zero => intro k; rfl
  | succ m ih =>
    intro k
    rw [List.replicate_succ, gatesRefsOkFrom, h k, Bool.true_and]
    exact ih (k + 1)

theorem gatesRefsOkFrom_flatten_chunks (c : Nat) (chunk : Nat → List Gate)
    (hclen : ∀ i, (chunk i).length = c) (base0 m : Nat)
    (hok : ∀ i, i < m → gatesRefsOkFrom (base0 + c * i) (chunk i) = true) :
    ∀ (k j : Nat), j + k ≤ m →
    gatesRefsOkFrom (base0 + c * j) (((List.range' j k).map chunk).flatten) = true := by
  intro k
  induction k with
  | zero =>
    intro j _
    rfl
  | succ k ih =>
    intro j hjk
    rw [List.range'_succ, List.map_cons, List.flatten_cons, gatesRefsOkFrom_append]
    rw [hok j (by omega), Bool.true_and]
    have harith : base0 + c * j + (chunk j).length = base0 + c * (j + 1) := by
      rw [hclen]
      ring
    rw [harith]
    exact ih (j + 1) (by omega)

theorem dropWhile_input_replicate (n : Nat) (g : Gate) (h : isInputGate g = true)
    (l : List Gate) :
    (List.replicate n g ++ l).dropWhile isInputGate = l.dropWhile isInputGate := by
  induction n with
  | zero => simp
  | succ m ih =>
    rw [List.replicate_succ, List.cons_append, List.dropWhile_cons]
    simp [h, ih]

theorem inputsInFront_inputs_append (n : Nat) (rest : List Gate)
    (h : ∀ g ∈ rest, isInputGate g = false) :
    inputsInFront (List.replicate n Gate.InContrib ++ List.replicate n Gate.InEval
      ++ rest) = true := by
  unfold inputsInFront
  rw [List.append_assoc]
  rw [dropWhile_input_replicate n Gate.InContrib rfl,
    dropWhile_input_replicate n Gate.InEval rfl]
  rw [List.all_eq_true]
  intro g hg
  have hmem : g ∈ rest := (List.dropWhile_sublist isInputGate).mem hg
  rw [h g hmem]
  rfl

theorem circuitWF_parts (c : Circuit) (h1 : inputsInFront c.gates = true)
    (h2 : gatesRefsOkFrom 0 c.gates = true)
    (h3 : c.outputs.all (fun i => decide (i < c.gates.length)) = true) :
    circuitWF c = true := by
  unfold circuitWF
  rw [h1, h2, h3]
  rfl

theorem refs_inputs_append (n : Nat) (rest : List Gate)
    (h : gatesRefsOkFrom (2 * n) rest = true) :
    gatesRefsOkFrom 0 (List.replicate n Gate.InContrib
      ++ List.replicate n Gate.InEval ++ rest) = true := by
  rw [gatesRefsOkFrom_append, gatesRefsOkFrom_append]
  simp only [List.length_append, List.length_replicate]
  rw [gatesRefsOkFrom_replicate_input Gate.InContrib (fun j => rfl),
    gatesRefsOkFrom_replicate_input Gate.InEval (fun j => rfl)]
  have harith : 0 + (n + n) = 2 * n := by omega
  rw [harith, h]
  rfl

theorem nonInput_of_map_chunks (chunk : Nat → List Gate)
    (hni : ∀ i, ∀ g ∈ chunk i, isInputGate g = false) :
    ∀ (l : List Nat), ∀ g ∈ (l.map chunk).flatten, isInputGate g = false := by
  intro l g hg
  rw [List.mem_flatten] at hg
  obtain ⟨v, hv, hgv⟩ := hg
  obtain ⟨i, _, rfl⟩ := List.mem_map.mp hv
  exact hni i g hgv

theorem composite_outputs_ok (n c r : Nat) (hr : r < c) (chunk : Nat → List Gate)
    (hclen : ∀ i, (chunk i).length = c) :
    ((List.range n).map (fun i => 2 * n + c * i + r)).all
      (fun i => decide (i < (List.replicate n Gate.InContrib
        ++ List.replicate n Gate.InEval
        ++ ((List.range n).map chunk).flatten).length)) = true := by
  rw [List.all_eq_true]
  intro o ho
  obtain ⟨i, hi, rfl⟩ := List.mem_map.mp ho
  have hi' : i < n := List.mem_range.mp hi
  rw [decide_eq_true_eq]
  rw [List.length_append, List.length_append, List.length_replicate,
    List.length_replicate]
  rw [flatten_length_const c _ (by
    intro l hl
    obtain ⟨i2, _, rfl⟩ := List.mem_map.mp hl
    exact hclen i2)]
  rw [List.length_map, List.length_range]
  have h1 : c * (i + 1) ≤ c * n := Nat.mul_le_mul_left c (by omega)
  have h2 : c * (i + 1) = c * i + c := by ring
  omega

theorem composite_circuitWF (n c : Nat) (chunk : Nat → List Gate) (r : Nat)
    (hr : r < c) (hclen : ∀ i, (chunk i).length = c)
    (hni : ∀ i, ∀ g ∈ chunk i, isInputGate g = false)
    (hok : ∀ i, i < n → gatesRefsOkFrom (2 * n + c * i) (chunk i) = true) :
    circuitWF ⟨List.replicate n Gate.InContrib ++ List.replicate n Gate.InEval
        ++ ((List.range n).map chunk).flatten,
      (List.range n).map (fun i => 2 * n + c * i + r)⟩ = true := by
  apply circuitWF_parts
  · exact inputsInFront_inputs_append n _ (nonInput_of_map_chunks chunk hni _)
  · apply refs_inputs_append
    rw [List.range_eq_range' n]
    have h := gatesRefsOkFrom_flatten_chunks c chunk hclen (2 * n) n hok n 0
      (by omega)
    simpa using h
  · exact composite_outputs_ok n c r hr chunk hclen

/-- Claim C6: every circuit built by the bitwise synthesizers satisfies
the wire-index invariant — the input gates form a prefix, every Xor, And
and Not gate references only strictly smaller wire indices, and every
output index is a valid index into the gate list. -/
theorem claim_C6_wire_invariant (n : Nat) :
    circuitWF (build_and_simulate_circuit n Gate.Xor) = true
    ∧ circuitWF (build_and_simulate_circuit n Gate.And) = true
    ∧ circuitWF (build_and_simulate_not_circuit n) = true
    ∧ circuitWF (build_and_simulate_or_circuit n) = true
    ∧ circuitWF (build_and_simulate_nand_circuit n) = true
    ∧ circuitWF (build_and_simulate_nor_circuit n) = true
    ∧ circuitWF (build_and_simulate_xnor_circuit n) = true := by
  refine ⟨?_, ?_, ?_, ?_, ?_, ?_, ?_⟩
  · unfold build_and_simulate_circuit
    apply circuitWF_parts
    · apply inputsInFront_inputs_append
      intro g hg
      obtain ⟨i, _, rfl⟩ := List.mem_map.mp hg
      rfl
    · apply refs_inputs_append
      rw [← flatten_map_singleton, List.range_eq_range' n]
      have h := gatesRefsOkFrom_flatten_chunks 1 (fun i => [Gate.Xor i (n + i)])
        (fun i => rfl) (2 * n) n (by
          intro i hi
          simp [gatesRefsOkFrom, gateRefsOk]
          omega) n 0 (by omega)
      simpa using h
    · rw [List.all_eq_true]
      intro o ho
      have hm := List.mem_range'_1.mp ho
      rw [decide_eq_true_eq]
      simp only [List.length_append, List.length_replicate, List.length_map,
        List.length_range]
      omega
  · unfold build_and_simulate_circuit
    apply circuitWF_parts
    · apply inputsInFront_inputs_append
      intro g hg
      obtain ⟨i, _, rfl⟩ := List.mem_map.mp hg
      rfl
    · apply refs_inputs_append
      rw [← flatten_map_singleton, List.range_eq_range' n]
      have h := gatesRefsOkFrom_flatten_chunks 1 (fun i => [Gate.And i (n + i)])
        (fun i => rfl) (2 * n) n (by
          intro i hi
          simp [gatesRefsOkFrom, gateRefsOk]
          omega) n 0 (by omega)
      simpa using h
    · rw [List.all_eq_true]
      intro o ho
      have hm := List.mem_range'_1.mp ho
      rw [decide_eq_true_eq]
      simp only [List.length_append, List.length_replicate, List.length_map,
        List.length_range]
      omega
  · unfold build_and_simulate_not_circuit
    apply circuitWF_parts
    · apply inputsInFront_inputs_append
      intro g hg
      obtain ⟨i, _, rfl⟩ := List.mem_map.mp hg
      rfl
    · apply refs_inputs_append
      rw [← flatten_map_singleton, List.range_eq_range' (n * 2)]
      have h := gatesRefsOkFrom_flatten_chunks 1 (fun i => [Gate.Not i])
        (fun i => rfl) (2 * n) (n * 2) (by
          intro i hi
          simp [gatesRefsOkFrom, gateRefsOk]
          omega) (n * 2) 0 (by omega)
      simpa using h
    · rw [List.all_eq_true]
      intro o ho
      have hm := List.mem_range'_1.mp ho
      rw [decide_eq_true_eq]
      simp only [List.length_append, List.length_replicate, List.length_map,
        List.length_range]
      omega
  · rw [or_circuit_eq n]
    apply composite_circuitWF n 3
      (fun i => [Gate.Xor i (n + i), Gate.And i (n + i),
        Gate.Xor (2 * n + 3 * i) (2 * n + 3 * i + 1)]) 2 (by norm_num) (fun i => rfl)
    · intro i g hg
      simp only [List.mem_cons, List.not_mem_nil, or_false] at hg
      rcases hg with h | h | h <;> subst h <;> rfl
    · intro i hi
      simp [gatesRefsOkFrom, gateRefsOk]
      omega
  · rw [nand_circuit_eq n]
    apply composite_circuitWF n 2
      (fun i => [Gate.And i (n + i), Gate.Not (2 * n + 2 * i)]) 1 (by norm_num)
      (fun i => rfl)
    · intro i g hg
      simp only [List.mem_cons, List.not_mem_nil, or_false] at hg
      rcases hg with h | h <;> subst h <;> rfl
    · intro i hi
      simp [gatesRefsOkFrom, gateRefsOk]
      omega
  · rw [nor_circuit_eq n]
    apply composite_circuitWF n 4
      (fun i => [Gate.Xor i (n + i), Gate.And i (n + i),
        Gate.Xor (2 * n + 4 * i) (2 * n + 4 * i + 1),
        Gate.Not (2 * n + 4 * i + 2)]) 3 (by norm_num) (fun i => rfl)
    · intro i g hg
      simp only [List.mem_cons, List.not_mem_nil, or_false] at hg
      rcases hg with h | h | h | h <;> subst h <;> rfl
    · intro i hi
      simp [gatesRefsOkFrom, gateRefsOk]
      omega
  · rw [xnor_circuit_eq n]
    apply composite_circuitWF n 2
      (fun i => [Gate.Xor i (n + i), Gate.Not (2 * n + 2 * i)]) 1 (by norm_num)
      (fun i => rfl)
    · intro i g hg
      simp only [List.mem_cons, List.not_mem_nil, or_false] at hg
      rcases hg with h | h <;> subst h <;> rfl
    · intro i hi
      simp [gatesRefsOkFrom, gateRefsOk]
      omega
